import Mathlib

/-!
Verification development for the ads-detector pipeline
(`src/backend/utils/ads-detector`).  Times and durations are modelled as
exact rationals (the C++ code uses `double`); machine loops over
floating-point counters are translated to their exact-arithmetic
counterparts, keeping the literal epsilon guards of the source.
-/

namespace AdsDetector

/-- Detected advertisement interval (`struct Interval` in `main.cpp`):
start and end offsets in seconds from the beginning of the playlist. -/
structure Interval where
  startSec : ℚ
  endSec : ℚ
  deriving DecidableEq, Repr

/-- Parameters of the hysteretic segmenter taken from `Args` in `main.cpp`:
`enterConsecutive`/`exitConsecutive` (CLI `--enter-n`/`--exit-n`, validated
to be at least 1), `minAdSec` (CLI `--min-ad-sec`, not validated) and the
total playlist duration. -/
structure SegParams where
  enterConsecutive : ℕ
  exitConsecutive : ℕ
  minAdSec : ℚ
  totalDurationSec : ℚ
  deriving DecidableEq, Repr

/-- Mutable state of the segmentation loop in `main.cpp` (lines 1745-1749):
`inAd`, `adStart`, `noLogoStreak`, `logoStreak`, `startCandidateIdx`
(an `int`, `-1` when there is no candidate), plus the accumulated `ads`. -/
structure SegState where
  inAd : Bool
  adStart : ℚ
  noLogoStreak : ℕ
  logoStreak : ℕ
  startCandidateIdx : ℤ
  ads : List Interval
  deriving DecidableEq, Repr

/-- One iteration of the segmentation loop (`main.cpp` lines 1753-1803) at
sample index `i`.  `lab.1` is the `strongNoLogo` predicate of the sample and
`lab.2` its `strongLogo` predicate (the loop body reads only these two). -/
def segStep (p : SegParams) (times : List ℚ) (i : ℕ) (lab : Bool × Bool)
    (st : SegState) : SegState :=
  if st.inAd = false then
    let streak : ℕ := if lab.1 then st.noLogoStreak + 1 else 0
    let cand : ℤ :=
      if lab.1 then (if st.noLogoStreak = 0 then (i : ℤ) else st.startCandidateIdx)
      else (-1)
    if p.enterConsecutive ≤ streak then
      { inAd := true
        adStart := times.getD (max 0 cand).toNat 0
        noLogoStreak := 0
        logoStreak := 0
        startCandidateIdx := -1
        ads := st.ads }
    else
      { st with noLogoStreak := streak, startCandidateIdx := cand }
  else
    let streak : ℕ := if lab.2 then st.logoStreak + 1 else 0
    if p.exitConsecutive ≤ streak then
      let endIdx : ℕ := (max 0 ((i : ℤ) - (p.exitConsecutive : ℤ) + 1)).toNat
      let adEnd : ℚ := times.getD endIdx 0
      { st with
        inAd := false
        logoStreak := 0
        ads := if p.minAdSec ≤ adEnd - st.adStart
               then st.ads ++ [⟨st.adStart, adEnd⟩] else st.ads }
    else
      { st with logoStreak := streak }

/-- Runs the segmentation loop over the remaining per-sample labels,
starting at sample index `i`. -/
def segLoop (p : SegParams) (times : List ℚ) : ℕ → List (Bool × Bool) → SegState → SegState
  | _, [], st => st
  | i, lab :: rest, st => segLoop p times (i + 1) rest (segStep p times i lab st)

/-- Initial state of the segmentation loop (`main.cpp` lines 1745-1749). -/
def segInit : SegState :=
  { inAd := false, adStart := 0, noLogoStreak := 0, logoStreak := 0
    startCandidateIdx := -1, ads := [] }

/-- Terminal flush of the segmentation loop (`main.cpp` lines 1805-1818):
if the run ends inside an ad, the ad is closed at `totalDurationSec` subject
to the same minimum-length rule. -/
def segFlush (p : SegParams) (st : SegState) : List Interval :=
  if st.inAd then
    if p.minAdSec ≤ p.totalDurationSec - st.adStart
    then st.ads ++ [⟨st.adStart, p.totalDurationSec⟩]
    else st.ads
  else st.ads

/-- Coarse ad intervals produced by the segmentation loop plus the terminal
flush (`main.cpp` lines 1745-1818). -/
def segmentAds (p : SegParams) (times : List ℚ) (labels : List (Bool × Bool)) :
    List Interval :=
  segFlush p (segLoop p times 0 labels segInit)

/-- Comparison slack used by the probe-generation loops of
`refineIntervalsIterative` (`main.cpp` lines 287 and 292): `1e-9`. -/
def refineEps : ℚ := 1 / 1000000000

/-- Probe step of `refineIntervalsIterative` (`main.cpp` line 264): 5 s. -/
def refineStepSec : ℚ := 5

/-- Number of iterations of the probe loop
`for (t = a; t <= b + 1e-9; t += refineStepSec)` in exact arithmetic. -/
def probeCount (a b : ℚ) : ℕ :=
  if a ≤ b + refineEps then (⌊(b + refineEps - a) / refineStepSec⌋.toNat + 1) else 0

/-- Probe timestamps generated by the loop
`for (t = a; t <= b + 1e-9; t += refineStepSec)` in exact arithmetic. -/
def probeTimes (a b : ℚ) : List ℚ :=
  (List.range (probeCount a b)).map (fun (k : ℕ) => a + (k : ℚ) * refineStepSec)

/-- Scan of `main.cpp` lines 340-345: walking the start-window probes from
index 1, the first probe whose predecessor had logo and which itself has no
logo becomes the refined start.  `prev` is the label of the predecessor. -/
def refinedStartGo (cs : ℚ) : List ℚ → Bool → List Bool → ℚ
  | t :: ts, prev, h :: hs =>
      if prev = true ∧ h = false then t else refinedStartGo cs ts h hs
  | _, _, _ => cs

/-- Refined start of one interval (`main.cpp` lines 335-346): if the first
start-window probe already has no logo its timestamp is taken, otherwise the
first logo-to-no-logo transition; if none exists the coarse start is kept. -/
def refinedStartScan (cs : ℚ) : List ℚ → List Bool → ℚ
  | t :: _, false :: _ => t
  | _ :: ts, h :: hs => refinedStartGo cs ts h hs
  | _, _ => cs

/-- Refined end of one interval (`main.cpp` lines 348-359): the first
end-window probe that has logo; if none exists the coarse end is kept. -/
def refinedEndScan (ce : ℚ) : List ℚ → List Bool → ℚ
  | t :: ts, h :: hs => if h then t else refinedEndScan ce ts hs
  | _, _ => ce

/-- Start-window probe timestamps of a coarse interval
(`main.cpp` lines 282-283 and 287): window `[max(0, s - 30), min(T, s)]`. -/
def startWindowTimes (T : ℚ) (iv : Interval) : List ℚ :=
  probeTimes (max 0 (iv.startSec - 30)) (min T iv.startSec)

/-- End-window probe timestamps of a coarse interval
(`main.cpp` lines 284-285 and 292): window `[max(0, e - 30), min(T, e)]`. -/
def endWindowTimes (T : ℚ) (iv : Interval) : List ℚ :=
  probeTimes (max 0 (iv.endSec - 30)) (min T iv.endSec)

/-- Refinement of a single coarse interval (`main.cpp` lines 317-382) given
the logo outcomes of its start-window and end-window probes; if the refined
end falls strictly before the refined start, the coarse bounds are kept
(lines 361-364). -/
def refineOneInterval (T : ℚ) (iv : Interval) (sHas eHas : List Bool) : Interval :=
  let rs := refinedStartScan iv.startSec (startWindowTimes T iv) sHas
  let re := refinedEndScan iv.endSec (endWindowTimes T iv) eHas
  if re < rs then iv else ⟨rs, re⟩

/-- Refinement of all coarse intervals (`refineIntervalsIterative`,
`main.cpp` lines 254-382).  Probes are flattened in interval order, start
probes before end probes (lines 279-297); `f` gives the logo outcome of the
probe with a given flat index, as produced by
`evaluateHasLogoParallelProbes`. -/
def refineIntervalsIterative (T : ℚ) (f : ℕ → Bool) : ℕ → List Interval → List Interval
  | _, [] => []
  | off, iv :: rest =>
      let sT := startWindowTimes T iv
      let eT := endWindowTimes T iv
      let sHas := (List.range sT.length).map (fun k => f (off + k))
      let eHas := (List.range eT.length).map (fun k => f (off + sT.length + k))
      refineOneInterval T iv sHas eHas ::
        refineIntervalsIterative T f (off + sT.length + eT.length) rest

/-- Specification-side segmenter state, transcribed from the transition
table of spec section 4.6: either OUTSIDE_AD with its `noLogoStreak` counter
and `startCandidateIdx`, or INSIDE_AD with `adStart` and its `logoStreak`
counter.  This definition follows the spec's words and is compared with the
segmenter embedded from the source. -/
inductive SpecState where
  | outsideAd (noLogoStreak : ℕ) (startCandidateIdx : ℤ)
  | insideAd (adStart : ℚ) (logoStreak : ℕ)
  deriving DecidableEq, Repr

/-- Specification-side transition at sample `i`, transcribed row by row from
the table of spec section 4.6.  Returns the emitted intervals (at most one)
and the successor state.  In OUTSIDE_AD: a first no-logo sample remembers
`startCandidateIdx := i` and sets the streak to 1, a continuing one
increments the streak, a logo sample resets streak and candidate; when the
streak reaches `enterN` the machine moves to INSIDE_AD with
`adStart := t[startCandidateIdx]` and reset counters.  In INSIDE_AD: a
strong-logo sample increments `logoStreak`, any other resets it; when the
streak reaches `exitN` the machine moves to OUTSIDE_AD with
`adEnd := t[i - exitN + 1]`, emitting iff `adEnd - adStart ≥ minAdSec`. -/
def specSegStep (p : SegParams) (t : List ℚ) (i : ℕ) (lab : Bool × Bool) :
    SpecState → List Interval × SpecState
  | .outsideAd streak cand =>
      let streak' : ℕ := if lab.1 then streak + 1 else 0
      let cand' : ℤ := if lab.1 then (if streak = 0 then (i : ℤ) else cand) else -1
      if p.enterConsecutive ≤ streak' then
        ([], .insideAd (t.getD cand'.toNat 0) 0)
      else
        ([], .outsideAd streak' cand')
  | .insideAd adStart ls =>
      let ls' : ℕ := if lab.2 then ls + 1 else 0
      if p.exitConsecutive ≤ ls' then
        let adEnd := t.getD (i + 1 - p.exitConsecutive) 0
        ((if p.minAdSec ≤ adEnd - adStart then [⟨adStart, adEnd⟩] else []),
         .outsideAd 0 (-1))
      else
        ([], .insideAd adStart ls')

/-- Specification-side segmenter run over the remaining samples, plus the
terminal rule of spec section 4.6: if still INSIDE_AD at the end of the
samples, `adEnd := totalDuration` with the same minimum-length rule. -/
def specSegRun (p : SegParams) (t : List ℚ) : ℕ → List (Bool × Bool) → SpecState → List Interval
  | _, [], .outsideAd _ _ => []
  | _, [], .insideAd adStart _ =>
      if p.minAdSec ≤ p.totalDurationSec - adStart
      then [⟨adStart, p.totalDurationSec⟩] else []
  | i, lab :: rest, st =>
      let step := specSegStep p t i lab st
      step.1 ++ specSegRun p t (i + 1) rest step.2

/-- Specification-side segmenter: start in OUTSIDE_AD with zero streak and
no candidate. -/
def specSegmentAds (p : SegParams) (t : List ℚ) (labels : List (Bool × Bool)) :
    List Interval :=
  specSegRun p t 0 labels (.outsideAd 0 (-1))

/-- Final report intervals of a successful run (`main.cpp` lines 1745-1827):
the coarse intervals of the segmenter, then boundary refinement.  When
`refineOk = false` (a refine worker failed), `refineIntervalsIterative`
returns with the coarse intervals unchanged (`main.cpp` lines 303-306). -/
def detectAndRefine (p : SegParams) (times : List ℚ) (labels : List (Bool × Bool))
    (f : ℕ → Bool) (refineOk : Bool) : List Interval :=
  let coarse := segmentAds p times labels
  if refineOk then refineIntervalsIterative p.totalDurationSec f 0 coarse else coarse

theorem toNat_max_zero (c : ℤ) : (max 0 c).toNat = c.toNat := by omega

theorem toNat_exit_idx (i N : ℕ) : (max 0 ((i : ℤ) - (N : ℤ) + 1)).toNat = i + 1 - N := by
  omega

/-- Abstraction of a source-side segmenter state to the spec-side state. -/
def specOf (st : SegState) : SpecState :=
  if st.inAd then .insideAd st.adStart st.logoStreak
  else .outsideAd st.noLogoStreak st.startCandidateIdx

/-- Reachable-state invariant of the segmentation loop: while inside an ad,
the outside-state counters hold the values they were given on entry. -/
def segWf (st : SegState) : Prop :=
  st.inAd = true → st.noLogoStreak = 0 ∧ st.startCandidateIdx = -1

theorem segStep_ads (p : SegParams) (t : List ℚ) (i : ℕ) (lab : Bool × Bool)
    (st : SegState) :
    (segStep p t i lab st).ads = st.ads ++ (specSegStep p t i lab (specOf st)).1 := by
  cases hin : st.inAd
  · simp only [segStep, specSegStep, specOf, hin, eq_self_iff_true, if_true,
      Bool.false_eq_true, Bool.true_eq_false, if_false]
    by_cases hl : lab.1 = true <;>
      simp only [hl, Bool.false_eq_true, if_true, if_false] <;> split <;> simp
  · simp only [segStep, specSegStep, specOf, hin, eq_self_iff_true, if_true,
      Bool.false_eq_true, Bool.true_eq_false, if_false]
    by_cases hl : lab.2 = true <;>
      simp only [hl, Bool.false_eq_true, if_true, if_false] <;> split
    · rw [toNat_exit_idx]
      split <;> simp
    · simp
    · rw [toNat_exit_idx]
      split <;> simp
    · simp

theorem segStep_specOf (p : SegParams) (t : List ℚ) (i : ℕ) (lab : Bool × Bool)
    (st : SegState) (h : segWf st) :
    specOf (segStep p t i lab st) = (specSegStep p t i lab (specOf st)).2 := by
  cases hin : st.inAd
  · simp only [segStep, specSegStep, specOf, hin, eq_self_iff_true, if_true,
      Bool.false_eq_true, Bool.true_eq_false, if_false]
    by_cases hl : lab.1 = true <;>
      simp only [hl, Bool.false_eq_true, if_true, if_false] <;> split <;>
      simp [toNat_max_zero]
  · obtain ⟨hn, hc⟩ := h hin
    simp only [segStep, specSegStep, specOf, hin, eq_self_iff_true, if_true,
      Bool.false_eq_true, Bool.true_eq_false, if_false]
    by_cases hl : lab.2 = true <;>
      simp only [hl, Bool.false_eq_true, if_true, if_false] <;> split <;>
      simp [hn, hc]

theorem segStep_wf (p : SegParams) (t : List ℚ) (i : ℕ) (lab : Bool × Bool)
    (st : SegState) (h : segWf st) : segWf (segStep p t i lab st) := by
  cases hin : st.inAd
  · simp only [segStep, segWf, hin, eq_self_iff_true, if_true,
      Bool.false_eq_true, Bool.true_eq_false, if_false]
    by_cases hl : lab.1 = true <;>
      simp only [hl, Bool.false_eq_true, if_true, if_false] <;> split <;> simp
  · obtain ⟨hn, hc⟩ := h hin
    simp only [segStep, segWf, hin, eq_self_iff_true, if_true,
      Bool.false_eq_true, Bool.true_eq_false, if_false]
    by_cases hl : lab.2 = true <;>
      simp only [hl, Bool.false_eq_true, if_true, if_false] <;> split <;> simp [hn, hc]

theorem segLoop_specRun (p : SegParams) (t : List ℚ) :
    ∀ (rest : List (Bool × Bool)) (i : ℕ) (st : SegState), segWf st →
      segFlush p (segLoop p t i rest st) = st.ads ++ specSegRun p t i rest (specOf st) := by
  intro rest
  induction rest with
  | nil =>
      intro i st h
      cases hin : st.inAd
      · simp [segLoop, segFlush, specSegRun, specOf, hin]
      · simp only [segLoop, segFlush, specSegRun, specOf, hin, if_true]
        split <;> simp
  | cons lab rest ih =>
      intro i st h
      simp only [segLoop, specSegRun]
      rw [ih (i + 1) _ (segStep_wf p t i lab st h), segStep_ads, segStep_specOf p t i lab st h]
      simp

theorem segmentAds_eq_spec (p : SegParams) (t : List ℚ)
    (labels : List (Bool × Bool)) :
    segmentAds p t labels = specSegmentAds p t labels := by
  have h := segLoop_specRun p t labels 0 segInit (by intro hc; cases hc)
  simpa [segmentAds, specSegmentAds, segInit, specOf] using h

/-- C3: for every sequence of samples with their noLogo/strongLogo
predicates, the segmenter behaves exactly as the spec's transition table:
starting in OUTSIDE_AD it enters an ad exactly when `enterN` consecutive
no-logo samples have been seen, with `adStart` the timestamp of the first
sample of that streak (the recorded candidate); while inside it leaves
exactly when `exitN` consecutive strong-logo samples have been seen, with
`adEnd = t[i - exitN + 1]`, emitting iff `adEnd - adStart ≥ minAdSec`; and
if still inside after the last sample, `adEnd = totalDuration` with the
same minimum-length rule.  Stated as: the segmenter embedded from the
source coincides with the machine transcribed from the spec's table, for
all parameters, sample times and label sequences. -/
theorem claimC3_hysteretic_segmenter (p : SegParams) (t : List ℚ)
    (labels : List (Bool × Bool)) :
    segmentAds p t labels = specSegmentAds p t labels :=
  segmentAds_eq_spec p t labels


theorem getD_mem_of_lt (l : List ℚ) (k : ℕ) (hk : k < l.length) : l.getD k 0 ∈ l := by
  rw [List.getD_eq_getElem _ _ hk]
  exact List.getElem_mem hk

theorem sorted_getD_lt (l : List ℚ) (hs : l.Sorted (· < ·)) (j k : ℕ)
    (hjk : j < k) (hk : k < l.length) : l.getD j 0 < l.getD k 0 := by
  have hj : j < l.length := hjk.trans hk
  rw [List.getD_eq_getElem _ _ hj, List.getD_eq_getElem _ _ hk]
  exact hs.rel_get_of_lt hjk

/-- Loop invariant of the segmentation loop before processing sample `i`. -/
structure SegInv (p : SegParams) (t : List ℚ) (i : ℕ) (st : SegState) : Prop where
  adsOk : ∀ iv ∈ st.ads, 0 ≤ iv.startSec ∧ iv.startSec < iv.endSec ∧
    p.minAdSec ≤ iv.endSec - iv.startSec ∧ iv.endSec < p.totalDurationSec
  adsOrd : st.ads.Pairwise (fun a b => a.endSec < b.startSec)
  adsBound : ∀ iv ∈ st.ads, ∀ k, i ≤ k → k < t.length → iv.endSec < t.getD k 0
  outCand : st.inAd = false → 1 ≤ st.noLogoStreak →
    0 ≤ st.startCandidateIdx ∧ st.startCandidateIdx.toNat + st.noLogoStreak = i ∧
    st.startCandidateIdx.toNat < t.length ∧
    ∀ iv ∈ st.ads, iv.endSec < t.getD st.startCandidateIdx.toNat 0
  inData : st.inAd = true →
    ∃ j : ℕ, j < t.length ∧ j < i ∧ st.adStart = t.getD j 0 ∧
      st.logoStreak + j < i ∧ ∀ iv ∈ st.ads, iv.endSec < st.adStart
  inCounters : st.inAd = true → st.noLogoStreak = 0 ∧ st.startCandidateIdx = -1

theorem segStep_seginv (p : SegParams) (t : List ℚ)
    (hmem : ∀ x ∈ t, 0 ≤ x ∧ x < p.totalDurationSec)
    (hsort : t.Sorted (· < ·))
    (henter : 1 ≤ p.enterConsecutive) (hexit : 1 ≤ p.exitConsecutive)
    (i : ℕ) (lab : Bool × Bool) (st : SegState) (hi : i < t.length)
    (h : SegInv p t i st) : SegInv p t (i + 1) (segStep p t i lab st) := by
  cases hin : st.inAd
  · -- OUTSIDE_AD
    by_cases hl : lab.1 = true
    · by_cases hc : p.enterConsecutive ≤ st.noLogoStreak + 1
      · -- entering the ad
        have hstep : segStep p t i lab st =
            { inAd := true
              adStart := t.getD (max 0 (if st.noLogoStreak = 0 then (i : ℤ)
                else st.startCandidateIdx)).toNat 0,
              noLogoStreak := 0, logoStreak := 0, startCandidateIdx := -1
              ads := st.ads } := by
          simp [segStep, hin, hl, hc]
        rw [hstep]
        refine ⟨h.adsOk, h.adsOrd, ?_, by simp, ?_, by simp⟩
        · intro iv hiv k hk hk'
          exact h.adsBound iv hiv k (by omega) hk'
        · intro _
          by_cases h0 : st.noLogoStreak = 0
          · refine ⟨i, hi, by omega, ?_, by dsimp only; omega, ?_⟩
            · simp [h0, toNat_max_zero]
            · intro iv hiv
              have := h.adsBound iv hiv i le_rfl hi
              simpa [h0, toNat_max_zero] using this
          · obtain ⟨hc0, hcsum, hclen, hcbnd⟩ := h.outCand hin (by omega)
            refine ⟨st.startCandidateIdx.toNat, hclen, by omega, ?_,
              by dsimp only; omega, ?_⟩
            · simp [h0, toNat_max_zero]
            · intro iv hiv
              simpa [h0, toNat_max_zero] using hcbnd iv hiv
      · -- staying outside, no-logo streak grows
        have hstep : segStep p t i lab st =
            { st with
              noLogoStreak := st.noLogoStreak + 1
              startCandidateIdx :=
                (if st.noLogoStreak = 0 then (i : ℤ) else st.startCandidateIdx) } := by
          simp [segStep, hin, hl, hc]
        rw [hstep]
        refine ⟨h.adsOk, h.adsOrd, ?_, ?_, by simp [hin], by simp [hin]⟩
        · intro iv hiv k hk hk'
          exact h.adsBound iv hiv k (by omega) hk'
        · intro _ _
          by_cases h0 : st.noLogoStreak = 0
          · refine ⟨by simp [h0], by simp [h0], by simpa [h0] using hi, ?_⟩
            intro iv hiv
            simpa [h0] using h.adsBound iv hiv i le_rfl hi
          · obtain ⟨hc0, hcsum, hclen, hcbnd⟩ := h.outCand hin (by omega)
            exact ⟨by simpa [h0] using hc0, by simp [h0]; omega,
              by simpa [h0] using hclen, by simpa [h0] using hcbnd⟩
    · -- logo sample outside: reset
      have hl' : lab.1 = false := by simpa using hl
      have hstep : segStep p t i lab st =
          { st with noLogoStreak := 0, startCandidateIdx := -1 } := by
        have : ¬ p.enterConsecutive ≤ 0 := by omega
        simp [segStep, hin, hl', this]
      rw [hstep]
      refine ⟨h.adsOk, h.adsOrd, ?_, by dsimp only; intro _ h1; omega, by simp [hin], by simp [hin]⟩
      intro iv hiv k hk hk'
      exact h.adsBound iv hiv k (by omega) hk'
  · -- INSIDE_AD
    obtain ⟨j, hjlen, hji, hadS, hls, hbnd⟩ := h.inData hin
    obtain ⟨hn0, hcm1⟩ := h.inCounters hin
    by_cases hl : lab.2 = true
    · by_cases hc : p.exitConsecutive ≤ st.logoStreak + 1
      · -- exiting the ad
        have hidx : (max 0 ((i : ℤ) - (p.exitConsecutive : ℤ) + 1)).toNat
            = i + 1 - p.exitConsecutive := toNat_exit_idx i p.exitConsecutive
        set endIdx := i + 1 - p.exitConsecutive with hEndIdx
        have hjend : j < endIdx := by omega
        have hendi : endIdx ≤ i := by omega
        have hendlen : endIdx < t.length := by omega
        have hlt : st.adStart < t.getD endIdx 0 := by
          rw [hadS]
          exact sorted_getD_lt t hsort j endIdx hjend hendlen
        have hstep : segStep p t i lab st =
            { st with
              inAd := false
              logoStreak := 0
              ads := (if p.minAdSec ≤ t.getD endIdx 0 - st.adStart
                then st.ads ++ [⟨st.adStart, t.getD endIdx 0⟩] else st.ads) } := by
          simp [segStep, hin, hl, hc, hidx]
        rw [hstep]
        set newAds := (if p.minAdSec ≤ t.getD endIdx 0 - st.adStart
          then st.ads ++ [⟨st.adStart, t.getD endIdx 0⟩] else st.ads) with hNew
        have hmemStart : 0 ≤ st.adStart := by
          rw [hadS]
          exact (hmem _ (getD_mem_of_lt t j (by omega))).1
        have hmemEnd : t.getD endIdx 0 < p.totalDurationSec :=
          (hmem _ (getD_mem_of_lt t endIdx hendlen)).2
        have hAdsOk : ∀ iv ∈ newAds, 0 ≤ iv.startSec ∧ iv.startSec < iv.endSec ∧
            p.minAdSec ≤ iv.endSec - iv.startSec ∧ iv.endSec < p.totalDurationSec := by
          rw [hNew]
          split
          · intro iv hiv
            rcases List.mem_append.1 hiv with hiv | hiv
            · exact h.adsOk iv hiv
            · rcases List.mem_singleton.1 hiv with rfl
              exact ⟨hmemStart, hlt, by assumption, hmemEnd⟩
          · exact h.adsOk
        have hAdsOrd : newAds.Pairwise (fun a b => a.endSec < b.startSec) := by
          rw [hNew]
          split
          · refine List.pairwise_append.2 ⟨h.adsOrd, List.pairwise_singleton _ _, ?_⟩
            intro a ha b hb
            rcases List.mem_singleton.1 hb with rfl
            exact hbnd a ha
          · exact h.adsOrd
        have hAdsBound : ∀ iv ∈ newAds, ∀ k, i + 1 ≤ k → k < t.length →
            iv.endSec < t.getD k 0 := by
          rw [hNew]
          intro iv hiv k hk hk'
          have hnewcase : iv ∈ st.ads ∨ iv = (⟨st.adStart, t.getD endIdx 0⟩ : Interval) := by
            revert hiv
            split
            · intro hiv
              rcases List.mem_append.1 hiv with hiv | hiv
              · exact Or.inl hiv
              · exact Or.inr (List.mem_singleton.1 hiv)
            · exact fun hiv => Or.inl hiv
          rcases hnewcase with hiv' | rfl
          · exact h.adsBound iv hiv' k (by omega) hk'
          · exact sorted_getD_lt t hsort endIdx k (by omega) hk'
        exact ⟨hAdsOk, hAdsOrd, hAdsBound, by dsimp only; intro _ h1; omega, by simp, by simp⟩
      · -- staying inside
        have hstep : segStep p t i lab st = { st with logoStreak := st.logoStreak + 1 } := by
          simp [segStep, hin, hl, hc]
        rw [hstep]
        refine ⟨h.adsOk, h.adsOrd, ?_, by simp [hin], ?_, by simp [hin, hn0, hcm1]⟩
        · intro iv hiv k hk hk'
          exact h.adsBound iv hiv k (by omega) hk'
        · intro _
          exact ⟨j, hjlen, by omega, hadS, by simp; omega, hbnd⟩
    · -- no strong logo inside: streak resets
      have hl' : lab.2 = false := by simpa using hl
      have hstep : segStep p t i lab st = { st with logoStreak := 0 } := by
        have : ¬ p.exitConsecutive ≤ 0 := by omega
        simp [segStep, hin, hl', this]
      rw [hstep]
      refine ⟨h.adsOk, h.adsOrd, ?_, by simp [hin], ?_, by simp [hin, hn0, hcm1]⟩
      · intro iv hiv k hk hk'
        exact h.adsBound iv hiv k (by omega) hk'
      · intro _
        exact ⟨j, hjlen, by omega, hadS, by simp; omega, hbnd⟩

theorem segLoop_seginv (p : SegParams) (t : List ℚ)
    (hmem : ∀ x ∈ t, 0 ≤ x ∧ x < p.totalDurationSec)
    (hsort : t.Sorted (· < ·))
    (henter : 1 ≤ p.enterConsecutive) (hexit : 1 ≤ p.exitConsecutive) :
    ∀ (rest : List (Bool × Bool)) (i : ℕ) (st : SegState),
      i + rest.length ≤ t.length → SegInv p t i st →
      SegInv p t (i + rest.length) (segLoop p t i rest st) := by
  intro rest
  induction rest with
  | nil => intro i st _ h; simpa [segLoop] using h
  | cons lab rest ih =>
      intro i st hlen h
      have hi : i < t.length := by simp at hlen; omega
      have h' := segStep_seginv p t hmem hsort henter hexit i lab st hi h
      have := ih (i + 1) (segStep p t i lab st) (by simp at hlen ⊢; omega) h'
      simpa [segLoop, Nat.add_assoc, Nat.add_comm, Nat.add_left_comm] using this

theorem segInit_seginv (p : SegParams) (t : List ℚ) : SegInv p t 0 segInit := by
  refine ⟨?_, ?_, ?_, ?_, ?_, ?_⟩ <;> simp [segInit]

/-- Invariants of the coarse segmenter output: each interval satisfies
`0 ≤ start < end ≤ totalDuration` and `end - start ≥ minAdSec`, and the
intervals are strictly ordered and disjoint. -/
theorem segmentAds_invariants (p : SegParams) (t : List ℚ)
    (labels : List (Bool × Bool))
    (hmem : ∀ x ∈ t, 0 ≤ x ∧ x < p.totalDurationSec)
    (hsort : t.Sorted (· < ·))
    (henter : 1 ≤ p.enterConsecutive) (hexit : 1 ≤ p.exitConsecutive)
    (hlen : labels.length ≤ t.length) :
    (∀ iv ∈ segmentAds p t labels, 0 ≤ iv.startSec ∧ iv.startSec < iv.endSec ∧
      p.minAdSec ≤ iv.endSec - iv.startSec ∧ iv.endSec ≤ p.totalDurationSec) ∧
    (segmentAds p t labels).Pairwise (fun a b => a.endSec < b.startSec) := by
  have hinv := segLoop_seginv p t hmem hsort henter hexit labels 0 segInit
    (by simpa using hlen) (segInit_seginv p t)
  set st := segLoop p t 0 labels segInit with hst
  rw [segmentAds, segFlush, ← hst]
  cases hin : st.inAd
  · simp only [Bool.false_eq_true, if_false]
    refine ⟨fun iv hiv => ?_, hinv.adsOrd⟩
    obtain ⟨h1, h2, h3, h4⟩ := hinv.adsOk iv hiv
    exact ⟨h1, h2, h3, le_of_lt h4⟩
  · obtain ⟨j, hjlen, hji, hadS, hls, hbnd⟩ := hinv.inData hin
    have hstart0 : 0 ≤ st.adStart := by
      rw [hadS]; exact (hmem _ (getD_mem_of_lt t j hjlen)).1
    have hstartT : st.adStart < p.totalDurationSec := by
      rw [hadS]; exact (hmem _ (getD_mem_of_lt t j hjlen)).2
    simp only [if_true]
    split
    · constructor
      · intro iv hiv
        rcases List.mem_append.1 hiv with hiv | hiv
        · obtain ⟨h1, h2, h3, h4⟩ := hinv.adsOk iv hiv
          exact ⟨h1, h2, h3, le_of_lt h4⟩
        · rcases List.mem_singleton.1 hiv with rfl
          exact ⟨hstart0, hstartT, by assumption, le_rfl⟩
      · refine List.pairwise_append.2 ⟨hinv.adsOrd, List.pairwise_singleton _ _, ?_⟩
        intro a ha b hb
        rcases List.mem_singleton.1 hb with rfl
        exact hbnd a ha
    · refine ⟨fun iv hiv => ?_, hinv.adsOrd⟩
      obtain ⟨h1, h2, h3, h4⟩ := hinv.adsOk iv hiv
      exact ⟨h1, h2, h3, le_of_lt h4⟩

theorem refineEps_pos : (0:ℚ) < refineEps := by norm_num [refineEps]

theorem refineEps_lt_one : refineEps < 1 := by norm_num [refineEps]

theorem probeTimes_bounds (a b x : ℚ) (hx : x ∈ probeTimes a b) :
    a ≤ x ∧ x ≤ b + refineEps := by
  rw [probeTimes] at hx
  obtain ⟨k, hkr, rfl⟩ := List.mem_map.1 hx
  rw [List.mem_range] at hkr
  rw [probeCount] at hkr
  have hstep : (0:ℚ) < refineStepSec := by norm_num [refineStepSec]
  constructor
  · have : (0:ℚ) ≤ (k:ℚ) * refineStepSec :=
      mul_nonneg (by positivity) (le_of_lt hstep)
    linarith
  · split at hkr
    · rename_i hab
      have hy : (0:ℚ) ≤ b + refineEps - a := by linarith
      have hfl : (0:ℤ) ≤ ⌊(b + refineEps - a) / refineStepSec⌋ :=
        Int.floor_nonneg.2 (div_nonneg hy (le_of_lt hstep))
      have hk' : ((k:ℤ)) ≤ ⌊(b + refineEps - a) / refineStepSec⌋ := by omega
      have h2 : ((k:ℚ)) ≤ (b + refineEps - a) / refineStepSec := by
        have := Int.le_floor.1 hk'
        exact_mod_cast this
      have h3 : (k:ℚ) * refineStepSec ≤ b + refineEps - a :=
        (le_div_iff₀ hstep).1 h2
      linarith
    · omega

theorem refinedEndScan_mem (ce : ℚ) :
    ∀ (ts : List ℚ) (hs : List Bool),
      refinedEndScan ce ts hs = ce ∨ refinedEndScan ce ts hs ∈ ts := by
  intro ts
  induction ts with
  | nil => intro hs; left; cases hs <;> rfl
  | cons t ts ih =>
      intro hs
      cases hs with
      | nil => left; rfl
      | cons h hs =>
          rw [refinedEndScan]
          split
          · right; exact List.mem_cons_self _ _
          · rcases ih hs with h' | h'
            · left; exact h'
            · right; exact List.mem_cons_of_mem _ h'

theorem refinedStartGo_mem (cs : ℚ) :
    ∀ (ts : List ℚ) (prev : Bool) (hs : List Bool),
      refinedStartGo cs ts prev hs = cs ∨ refinedStartGo cs ts prev hs ∈ ts := by
  intro ts
  induction ts with
  | nil => intro prev hs; left; cases hs <;> rfl
  | cons t ts ih =>
      intro prev hs
      cases hs with
      | nil => left; rfl
      | cons h hs =>
          rw [refinedStartGo]
          split
          · right; exact List.mem_cons_self _ _
          · rcases ih h hs with h' | h'
            · left; exact h'
            · right; exact List.mem_cons_of_mem _ h'

theorem refinedStartScan_mem (cs : ℚ) (ts : List ℚ) (hs : List Bool) :
    refinedStartScan cs ts hs = cs ∨ refinedStartScan cs ts hs ∈ ts := by
  cases ts with
  | nil => left; cases hs <;> rfl
  | cons t ts =>
      cases hs with
      | nil => left; rfl
      | cons h hs =>
          cases h with
          | false =>
              have he : refinedStartScan cs (t :: ts) (false :: hs) = t := rfl
              rw [he]
              right
              exact List.mem_cons_self _ _
          | true =>
              have he : refinedStartScan cs (t :: ts) (true :: hs) =
                  refinedStartGo cs ts true hs := rfl
              rw [he]
              rcases refinedStartGo_mem cs ts true hs with h' | h'
              · left; exact h'
              · right; exact List.mem_cons_of_mem _ h'

theorem refineOneInterval_bounds (T : ℚ) (iv : Interval) (sHas eHas : List Bool)
    (h0 : 0 ≤ iv.startSec) (hse : iv.startSec < iv.endSec) (heT : iv.endSec ≤ T) :
    0 ≤ (refineOneInterval T iv sHas eHas).startSec ∧
    (refineOneInterval T iv sHas eHas).startSec ≤ (refineOneInterval T iv sHas eHas).endSec ∧
    (refineOneInterval T iv sHas eHas).endSec ≤ T + refineEps ∧
    iv.startSec - 30 ≤ (refineOneInterval T iv sHas eHas).startSec ∧
    (refineOneInterval T iv sHas eHas).startSec ≤ iv.startSec + refineEps ∧
    (refineOneInterval T iv sHas eHas).endSec ≤ iv.endSec + refineEps := by
  have heps := refineEps_pos
  have h0e : 0 ≤ iv.endSec := le_trans h0 (le_of_lt hse)
  have hrs : 0 ≤ refinedStartScan iv.startSec (startWindowTimes T iv) sHas ∧
      iv.startSec - 30 ≤ refinedStartScan iv.startSec (startWindowTimes T iv) sHas ∧
      refinedStartScan iv.startSec (startWindowTimes T iv) sHas ≤ iv.startSec + refineEps := by
    rcases refinedStartScan_mem iv.startSec (startWindowTimes T iv) sHas with he | he
    · rw [he]
      exact ⟨h0, by linarith, by linarith⟩
    · obtain ⟨hlo, hhi⟩ := probeTimes_bounds _ _ _ he
      refine ⟨le_trans (le_max_left 0 _) hlo, le_trans ?_ hlo, ?_⟩
      · exact le_max_right 0 _
      · calc refinedStartScan iv.startSec (startWindowTimes T iv) sHas
            ≤ min T iv.startSec + refineEps := hhi
          _ ≤ iv.startSec + refineEps := by
              have := min_le_right T iv.startSec
              linarith
  have hre : refinedEndScan iv.endSec (endWindowTimes T iv) eHas ≤ T + refineEps ∧
      refinedEndScan iv.endSec (endWindowTimes T iv) eHas ≤ iv.endSec + refineEps ∧
      0 ≤ refinedEndScan iv.endSec (endWindowTimes T iv) eHas := by
    rcases refinedEndScan_mem iv.endSec (endWindowTimes T iv) eHas with he | he
    · rw [he]
      exact ⟨by linarith, by linarith, h0e⟩
    · obtain ⟨hlo, hhi⟩ := probeTimes_bounds _ _ _ he
      have hminT := min_le_left T iv.endSec
      have hminE := min_le_right T iv.endSec
      exact ⟨by linarith, by linarith, le_trans (le_max_left 0 _) hlo⟩
  rw [refineOneInterval]
  split
  · exact ⟨h0, le_of_lt hse, by linarith, by linarith, by linarith, by linarith⟩
  · rename_i hge
    exact ⟨hrs.1, by linarith [not_lt.1 hge], hre.1, hrs.2.1, hrs.2.2, hre.2.1⟩

theorem refineIntervals_bounds (T : ℚ) (f : ℕ → Bool) :
    ∀ (ads : List Interval) (off : ℕ),
      (∀ iv ∈ ads, 0 ≤ iv.startSec ∧ iv.startSec < iv.endSec ∧ iv.endSec ≤ T) →
      ∀ r ∈ refineIntervalsIterative T f off ads,
        0 ≤ r.startSec ∧ r.startSec ≤ r.endSec ∧ r.endSec ≤ T + refineEps := by
  intro ads
  induction ads with
  | nil => intro off _ r hr; simp [refineIntervalsIterative] at hr
  | cons iv rest ih =>
      intro off hok r hr
      rw [refineIntervalsIterative] at hr
      rcases List.mem_cons.1 hr with rfl | hr
      · obtain ⟨h0, hse, heT⟩ := hok iv (List.mem_cons_self _ _)
        obtain ⟨a1, a2, a3, _, _, _⟩ := refineOneInterval_bounds T iv _ _ h0 hse heT
        exact ⟨a1, a2, a3⟩
      · exact ih _ (fun x hx => hok x (List.mem_cons_of_mem _ hx)) r hr

theorem refineIntervals_start_lb (T : ℚ) (f : ℕ → Bool) (B : ℚ) :
    ∀ (ads : List Interval) (off : ℕ),
      (∀ iv ∈ ads, 0 ≤ iv.startSec ∧ iv.startSec < iv.endSec ∧ iv.endSec ≤ T) →
      (∀ iv ∈ ads, B ≤ iv.startSec - 30) →
      ∀ r ∈ refineIntervalsIterative T f off ads, B ≤ r.startSec := by
  intro ads
  induction ads with
  | nil => intro off _ _ r hr; simp [refineIntervalsIterative] at hr
  | cons iv rest ih =>
      intro off hok hB r hr
      rw [refineIntervalsIterative] at hr
      rcases List.mem_cons.1 hr with rfl | hr
      · obtain ⟨h0, hse, heT⟩ := hok iv (List.mem_cons_self _ _)
        obtain ⟨_, _, _, a4, _, _⟩ := refineOneInterval_bounds T iv _ _ h0 hse heT
        exact le_trans (hB iv (List.mem_cons_self _ _)) a4
      · exact ih _ (fun x hx => hok x (List.mem_cons_of_mem _ hx))
          (fun x hx => hB x (List.mem_cons_of_mem _ hx)) r hr

theorem refineIntervals_pairwise (T : ℚ) (f : ℕ → Bool) :
    ∀ (ads : List Interval) (off : ℕ),
      (∀ iv ∈ ads, 0 ≤ iv.startSec ∧ iv.startSec < iv.endSec ∧ iv.endSec ≤ T) →
      ads.Pairwise (fun a b => a.endSec + 31 ≤ b.startSec) →
      (refineIntervalsIterative T f off ads).Pairwise
        (fun a b => a.endSec < b.startSec ∧ a.startSec < b.startSec) := by
  intro ads
  induction ads with
  | nil => intro off _ _; simp [refineIntervalsIterative]
  | cons iv rest ih =>
      intro off hok hgap
      rw [refineIntervalsIterative]
      rw [List.pairwise_cons] at hgap ⊢
      obtain ⟨hgap1, hgap2⟩ := hgap
      have hokr : ∀ x ∈ rest, 0 ≤ x.startSec ∧ x.startSec < x.endSec ∧ x.endSec ≤ T :=
        fun x hx => hok x (List.mem_cons_of_mem _ hx)
      obtain ⟨h0, hse, heT⟩ := hok iv (List.mem_cons_self _ _)
      obtain ⟨_, _, _, _, b5, b6⟩ := refineOneInterval_bounds T iv
        ((List.range (startWindowTimes T iv).length).map (fun k => f (off + k)))
        ((List.range (endWindowTimes T iv).length).map
          (fun k => f (off + (startWindowTimes T iv).length + k))) h0 hse heT
      refine ⟨?_, ih _ hokr hgap2⟩
      intro r hr
      have hlb : iv.endSec + 1 ≤ r.startSec := by
        refine refineIntervals_start_lb T f (iv.endSec + 1) rest _ hokr ?_ r hr
        intro x hx
        have := hgap1 x hx
        linarith
      have heps := refineEps_lt_one
      have heps0 := refineEps_pos
      constructor
      · linarith
      · linarith

theorem detectAndRefine_bounds (p : SegParams) (t : List ℚ)
    (labels : List (Bool × Bool)) (f : ℕ → Bool) (refineOk : Bool)
    (hmem : ∀ x ∈ t, 0 ≤ x ∧ x < p.totalDurationSec)
    (hsort : t.Pairwise (· < ·))
    (henter : 1 ≤ p.enterConsecutive) (hexit : 1 ≤ p.exitConsecutive)
    (hlen : labels.length ≤ t.length) :
    ∀ iv ∈ detectAndRefine p t labels f refineOk,
      0 ≤ iv.startSec ∧ iv.startSec ≤ iv.endSec ∧
        iv.endSec ≤ p.totalDurationSec + refineEps := by
  obtain ⟨hok, _⟩ := segmentAds_invariants p t labels hmem hsort henter hexit hlen
  have heps := refineEps_pos
  cases refineOk
  · intro iv hiv
    rw [detectAndRefine] at hiv
    simp only [Bool.false_eq_true, if_false] at hiv
    obtain ⟨h1, h2, _, h4⟩ := hok iv hiv
    exact ⟨h1, le_of_lt h2, by linarith⟩
  · intro iv hiv
    rw [detectAndRefine] at hiv
    simp only [if_true] at hiv
    exact refineIntervals_bounds p.totalDurationSec f (segmentAds p t labels) 0
      (fun x hx => ⟨(hok x hx).1, (hok x hx).2.1, (hok x hx).2.2.2⟩) iv hiv

theorem detectAndRefine_pairwise (p : SegParams) (t : List ℚ)
    (labels : List (Bool × Bool)) (f : ℕ → Bool) (refineOk : Bool)
    (hmem : ∀ x ∈ t, 0 ≤ x ∧ x < p.totalDurationSec)
    (hsort : t.Pairwise (· < ·))
    (henter : 1 ≤ p.enterConsecutive) (hexit : 1 ≤ p.exitConsecutive)
    (hlen : labels.length ≤ t.length)
    (hgap : (segmentAds p t labels).Pairwise (fun a b => a.endSec + 31 ≤ b.startSec)) :
    (detectAndRefine p t labels f refineOk).Pairwise
      (fun a b => a.endSec < b.startSec ∧ a.startSec < b.startSec) := by
  obtain ⟨hok, _⟩ := segmentAds_invariants p t labels hmem hsort henter hexit hlen
  cases refineOk
  · rw [detectAndRefine]
    simp only [Bool.false_eq_true, if_false]
    refine hgap.imp_of_mem ?_
    intro a b ha hb hab
    obtain ⟨_, h2, _, _⟩ := hok a ha
    exact ⟨by linarith, by linarith⟩
  · rw [detectAndRefine]
    simp only [if_true]
    exact refineIntervals_pairwise p.totalDurationSec f (segmentAds p t labels) 0
      (fun x hx => ⟨(hok x hx).1, (hok x hx).2.1, (hok x hx).2.2.2⟩) hgap

/-! Concrete runs used to separate the refined report from the coarse
invariants.  Times are a 5-second grid; labels are the binary-mode pair
(strongNoLogo, strongLogo) = (not hasLogo, hasLogo). -/

def cexTimesA : List ℚ := [0, 5, 10, 15, 20, 25, 30, 35, 40, 45, 50, 55, 60, 65, 70, 75, 80, 85, 90, 95, 100, 105, 110, 115]

def cexLabelsA : List (Bool × Bool) := [(false, true), (false, true), (false, true), (false, true), (false, true), (false, true), (false, true), (false, true), (false, true), (false, true), (false, true), (false, true), (false, true), (false, true), (false, true), (false, true), (false, true), (false, true), (false, true), (false, true), (true, false), (true, false), (true, false), (false, true)]

def cexParamsA : SegParams :=
  { enterConsecutive := 1, exitConsecutive := 1, minAdSec := 10, totalDurationSec := 120 }

def cexProbesA : ℕ → Bool := fun i => decide (i ≤ 6) || decide (10 ≤ i)

def cexTimesB : List ℚ := [0, 5, 10, 15, 20, 25, 30, 35, 40, 45, 50, 55, 60, 65, 70, 75, 80, 85, 90, 95, 100, 105, 110, 115, 120, 125, 130, 135, 140, 145]

def cexLabelsB : List (Bool × Bool) := [(false, true), (false, true), (false, true), (false, true), (false, true), (false, true), (false, true), (false, true), (false, true), (false, true), (false, true), (false, true), (false, true), (false, true), (false, true), (false, true), (false, true), (false, true), (false, true), (false, true), (true, false), (true, false), (true, false), (false, true), (false, true), (false, true), (true, false), (true, false), (true, false), (false, true)]

def cexParamsB : SegParams :=
  { enterConsecutive := 1, exitConsecutive := 1, minAdSec := 10, totalDurationSec := 150 }

def cexProbesB : ℕ → Bool := fun i => decide (i ≤ 6) || decide (i = 14)

/-- Evaluation of the first concrete run: the coarse ad is [100, 115];
refinement finds no start transition (start stays 100) and finds logo again
at the probe t = 100 of the end window [85, 115], so the reported interval
collapses to [100, 100]. -/
theorem cexA_eval :
    detectAndRefine cexParamsA cexTimesA cexLabelsA cexProbesA true =
      [⟨100, 100⟩] := by
  norm_num [detectAndRefine, segmentAds, segLoop, segStep, segInit, segFlush, cexParamsA,
    cexTimesA, cexLabelsA, cexProbesA]
  simp
  norm_num [refineIntervalsIterative, refineOneInterval, startWindowTimes,
    endWindowTimes, probeTimes, probeCount, refineEps, refineStepSec]
  simp [List.range_succ]
  norm_num [refinedStartScan, refinedStartGo, refinedEndScan, cexProbesA]

/-- Evaluation of the second concrete run: the coarse ads are [100, 115] and
[130, 145]; the second ad's start window [100, 130] sees logo at 100 and
no logo at 105, so its start is refined to 105, inside the first interval. -/
theorem cexB_eval :
    detectAndRefine cexParamsB cexTimesB cexLabelsB cexProbesB true =
      [⟨100, 115⟩, ⟨105, 145⟩] := by
  norm_num [detectAndRefine, segmentAds, segLoop, segStep, segInit, segFlush, cexParamsB,
    cexTimesB, cexLabelsB, cexProbesB]
  simp
  norm_num [refineIntervalsIterative, refineOneInterval, startWindowTimes,
    endWindowTimes, probeTimes, probeCount, refineEps, refineStepSec]
  simp [List.range_succ]
  norm_num [refinedStartScan, refinedStartGo, refinedEndScan, cexProbesB]

/-- C1 (counterexample): a successful run whose final report, after
boundary refinement, contains the degenerate interval [100, 100], which
violates both `start < end` and `end - start ≥ minAdSec` (minAdSec = 10
here): refinement can pull the end of an interval up to 30 s backwards
while leaving the start in place. -/
theorem claimC1_counterexample :
    ¬ (∀ iv ∈ detectAndRefine cexParamsA cexTimesA cexLabelsA cexProbesA true,
        0 ≤ iv.startSec ∧ iv.startSec < iv.endSec ∧
        iv.endSec ≤ cexParamsA.totalDurationSec ∧
        cexParamsA.minAdSec ≤ iv.endSec - iv.startSec) := by
  intro h
  have h2 := h ⟨100, 100⟩ (by rw [cexA_eval]; exact List.mem_cons_self _ _)
  exact absurd h2.2.1 (by norm_num)

/-- C1 (amended): for every run that completes successfully, every interval
in the final report satisfies `0 ≤ start ≤ end ≤ totalDuration + 1e-9`
(the 1e-9 being the slack of the probe-generation loop), regardless of the
per-sample labels and refinement probe outcomes.  The strict inequality
`start < end` and the lower bound `end - start ≥ minAdSec` hold for the
coarse intervals but do not survive refinement. -/
theorem claimC1_amended_report_bounds (p : SegParams) (t : List ℚ)
    (labels : List (Bool × Bool)) (f : ℕ → Bool) (refineOk : Bool)
    (hmem : ∀ x ∈ t, 0 ≤ x ∧ x < p.totalDurationSec)
    (hsort : t.Pairwise (· < ·))
    (henter : 1 ≤ p.enterConsecutive) (hexit : 1 ≤ p.exitConsecutive)
    (hlen : labels.length ≤ t.length) :
    ∀ iv ∈ detectAndRefine p t labels f refineOk,
      0 ≤ iv.startSec ∧ iv.startSec ≤ iv.endSec ∧
        iv.endSec ≤ p.totalDurationSec + refineEps :=
  detectAndRefine_bounds p t labels f refineOk hmem hsort henter hexit hlen

/-- Witness for the amended C1 at the first concrete run. -/
theorem claimC1_witness :
    (∀ x ∈ cexTimesA, 0 ≤ x ∧ x < cexParamsA.totalDurationSec) ∧
    cexTimesA.Pairwise (· < ·) ∧
    (∀ iv ∈ detectAndRefine cexParamsA cexTimesA cexLabelsA cexProbesA true,
      0 ≤ iv.startSec ∧ iv.startSec ≤ iv.endSec ∧
        iv.endSec ≤ cexParamsA.totalDurationSec + refineEps) :=
  ⟨by decide, by decide,
    claimC1_amended_report_bounds cexParamsA cexTimesA cexLabelsA cexProbesA true
      (by decide) (by decide) (by decide) (by decide) (by decide)⟩

/-- C2 (counterexample): a successful run whose final report contains the
overlapping intervals [100, 115] and [105, 145]: the start window of the
second coarse ad reaches 30 s backwards, into the first refined interval,
so the final report is not pairwise disjoint. -/
theorem claimC2_counterexample :
    ¬ ((detectAndRefine cexParamsB cexTimesB cexLabelsB cexProbesB true).Pairwise
        (fun a b => a.endSec < b.startSec ∨ b.endSec < a.startSec)) := by
  rw [cexB_eval]
  intro h
  obtain ⟨h1, _⟩ := List.pairwise_cons.1 h
  have h2 := h1 ⟨105, 145⟩ (by simp)
  rcases h2 with h' | h' <;> exact absurd h' (by norm_num)

/-- C2 (amended): the coarse intervals are always pairwise disjoint and
strictly ordered; the refined report is pairwise disjoint and strictly
ordered by start provided consecutive coarse intervals are separated by at
least 31 seconds (so that the 30-second refinement windows plus the 1e-9
loop slack cannot reach back into the previous interval), regardless of the
per-sample labels and refinement probe outcomes. -/
theorem claimC2_amended_disjoint_ordered (p : SegParams) (t : List ℚ)
    (labels : List (Bool × Bool)) (f : ℕ → Bool) (refineOk : Bool)
    (hmem : ∀ x ∈ t, 0 ≤ x ∧ x < p.totalDurationSec)
    (hsort : t.Pairwise (· < ·))
    (henter : 1 ≤ p.enterConsecutive) (hexit : 1 ≤ p.exitConsecutive)
    (hlen : labels.length ≤ t.length)
    (hgap : (segmentAds p t labels).Pairwise
      (fun a b => a.endSec + 31 ≤ b.startSec)) :
    ((segmentAds p t labels).Pairwise (fun a b => a.endSec < b.startSec)) ∧
    (detectAndRefine p t labels f refineOk).Pairwise
      (fun a b => a.endSec < b.startSec ∧ a.startSec < b.startSec) :=
  ⟨(segmentAds_invariants p t labels hmem hsort henter hexit hlen).2,
    detectAndRefine_pairwise p t labels f refineOk hmem hsort henter hexit hlen hgap⟩

/-- Times of the all-logo witness run. -/
def witTimesC2 : List ℚ := [0, 5, 10, 15, 20]

/-- Labels of the all-logo witness run: every sample has the logo. -/
def witLabelsC2 : List (Bool × Bool) :=
  [(false, true), (false, true), (false, true), (false, true), (false, true)]

/-- Witness for the amended C2 at a concrete all-logo run. -/
theorem claimC2_witness :
    (∀ x ∈ witTimesC2, 0 ≤ x ∧ x < cexParamsA.totalDurationSec) ∧
    ((segmentAds cexParamsA witTimesC2 witLabelsC2).Pairwise
      (fun a b => a.endSec + 31 ≤ b.startSec)) ∧
    (detectAndRefine cexParamsA witTimesC2 witLabelsC2 cexProbesA true).Pairwise
      (fun a b => a.endSec < b.startSec ∧ a.startSec < b.startSec) :=
  ⟨by decide, by decide,
    (claimC2_amended_disjoint_ordered cexParamsA witTimesC2 witLabelsC2 cexProbesA true
      (by decide) (by decide) (by decide) (by decide) (by decide) (by decide)).2⟩


/-- Arithmetic mean of a list (`mean` in `logo_detector.cpp` lines 98-101). -/
def ldMean (v : List ℚ) : ℚ := if v = [] then 0 else v.sum / (v.length : ℚ)

/-- Sample variance, the square of `stddev` (`logo_detector.cpp` lines
103-109): zero when fewer than two values, else the sum of squared
deviations from the mean divided by `n - 1`.  The C++ function returns the
square root, which is irrational in general; theorems quantify over a
nonnegative `sd` with `sd ^ 2 = ldVariance v`. -/
def ldVariance (v : List ℚ) : ℚ :=
  if v.length < 2 then 0
  else ((v.map (fun x => (x - ldMean v) ^ 2)).sum) / ((v.length : ℚ) - 1)

/-- The clamp of `std::clamp(v, lo, hi)` for `lo ≤ hi`. -/
def clampQ (lo hi v : ℚ) : ℚ := min hi (max lo v)

/-- Base-threshold computation of `train` (`logo_detector.cpp` lines
327-333), with `sd` standing for `stddev(dLogo)`: the default is
`mean(dLogo) + 5 * sd`; if the complement distance list is non-empty and its
mean exceeds the seed mean, the threshold is overridden by the midpoint of
the two means; the result is clamped to [0.05, 0.95]. -/
def trainThreshold (dLogo dNonLogo : List ℚ) (sd : ℚ) : ℚ :=
  let base := ldMean dLogo + 5 * sd
  let t : ℚ :=
    if dNonLogo ≠ [] then
      (if ldMean dLogo < ldMean dNonLogo
       then (ldMean dLogo + ldMean dNonLogo) / 2 else base)
    else base
  clampQ (5/100) (95/100) t

/-- C4: whenever training succeeds the stored base threshold equals
clamp(tau, 0.05, 0.95) where tau = mu_L + 5 * sigma_L by default and
tau = (mu_L + mu_N)/2 whenever the complement of the seeds is non-empty and
mu_N > mu_L; in particular the stored threshold always lies in
[0.05, 0.95].  `sd` embeds the C++ `stddev(dLogo)` via the hypothesis
`sd ^ 2 = ldVariance dLogo`. -/
theorem claimC4_base_threshold (dLogo dNonLogo : List ℚ) (sd : ℚ)
    (hsd0 : 0 ≤ sd) (hsd : sd ^ 2 = ldVariance dLogo) :
    (dNonLogo ≠ [] → ldMean dLogo < ldMean dNonLogo →
      trainThreshold dLogo dNonLogo sd =
        clampQ (5/100) (95/100) ((ldMean dLogo + ldMean dNonLogo) / 2)) ∧
    (dNonLogo = [] →
      trainThreshold dLogo dNonLogo sd =
        clampQ (5/100) (95/100) (ldMean dLogo + 5 * sd)) ∧
    (¬ ldMean dLogo < ldMean dNonLogo →
      trainThreshold dLogo dNonLogo sd =
        clampQ (5/100) (95/100) (ldMean dLogo + 5 * sd)) ∧
    (5/100 ≤ trainThreshold dLogo dNonLogo sd ∧
      trainThreshold dLogo dNonLogo sd ≤ 95/100) := by
  refine ⟨?_, ?_, ?_, ?_, ?_⟩
  · intro hne hlt
    simp [trainThreshold, hne, hlt]
  · intro hnil
    simp [trainThreshold, hnil]
  · intro hge
    by_cases hne : dNonLogo = [] <;> simp [trainThreshold, hne, hge]
  · rw [trainThreshold, clampQ]
    exact le_min (by norm_num) (le_max_left _ _)
  · rw [trainThreshold, clampQ]
    exact min_le_left _ _

/-- Witness for C4: seed distances [0, 1/2, 1] have variance 1/4, so
sd = 1/2; with an empty complement the threshold is
clamp(1/2 + 5/2) = 0.95. -/
theorem claimC4_witness :
    (0:ℚ) ≤ 1/2 ∧ ((1:ℚ)/2) ^ 2 = ldVariance [0, 1/2, 1] ∧
    (5/100 ≤ trainThreshold [0, 1/2, 1] [] (1/2) ∧
      trainThreshold [0, 1/2, 1] [] (1/2) ≤ 95/100) :=
  ⟨by norm_num, by simp [ldVariance, ldMean]; norm_num,
    (claimC4_base_threshold [0, 1/2, 1] [] (1/2) (by norm_num)
      (by simp [ldVariance, ldMean]; norm_num)).2.2.2⟩

/-- Exact iteration count of the sampling loop
`for (double t = 0.0; t < totalDurationSec; t += sampleEverySec)`
(`logo_detector.cpp` line 160): the number of naturals `i` with
`i * every < T`, which is `⌈T / every⌉` for positive arguments. -/
def sampleGridCount (T every : ℚ) : ℕ := (max 0 ⌈T / every⌉).toNat

/-- Target sampling timestamps of `train`
(`logo_detector.cpp` lines 158-160): `0, every, 2 * every, ...` below `T`. -/
def sampleTimes (T every : ℚ) : List ℚ :=
  (List.range (sampleGridCount T every)).map (fun (i : ℕ) => (i : ℚ) * every)

/-- Validation and minimum-grid check of `train`
(`logo_detector.cpp` lines 149-161). -/
def trainSampleGrid (T every : ℚ) : Except String (List ℚ) :=
  if T ≤ 0 then .error "totalDurationSec must be > 0"
  else if every ≤ 0 then .error "sampleEverySec must be > 0"
  else if (sampleTimes T every).length < 5
  then .error "not enough samples (need >= 5); increase duration or reduce --every-sec"
  else .ok (sampleTimes T every)

/-- Membership characterization of the sampling loop: for positive `every`,
the produced timestamps are exactly the multiples `i * every` below `T`. -/
theorem sampleTimes_mem_iff (T every : ℚ) (he : 0 < every) (x : ℚ) :
    x ∈ sampleTimes T every ↔ ∃ i : ℕ, x = (i : ℚ) * every ∧ (i : ℚ) * every < T := by
  rw [sampleTimes]
  constructor
  · intro hx
    obtain ⟨i, hi, rfl⟩ := List.mem_map.1 hx
    rw [List.mem_range, sampleGridCount] at hi
    refine ⟨i, rfl, ?_⟩
    have hi' : (i : ℤ) < ⌈T / every⌉ := by omega
    have h2 : (i : ℚ) < T / every := by
      have := Int.lt_ceil.1 hi'
      exact_mod_cast this
    exact (lt_div_iff₀ he).1 h2
  · rintro ⟨i, rfl, hlt⟩
    refine List.mem_map.2 ⟨i, ?_, rfl⟩
    rw [List.mem_range, sampleGridCount]
    have h2 : (i : ℚ) < T / every := (lt_div_iff₀ he).2 hlt
    have h3 : (i : ℤ) < ⌈T / every⌉ := Int.lt_ceil.2 (by exact_mod_cast h2)
    omega

/-- C5 (counterexample): with T = 12 and Delta = 5 the sampling loop
produces the three timestamps 0, 5, 10, not `⌊T/Δ⌋ = 2` of them. -/
theorem claimC5_counterexample :
    sampleTimes 12 5 = [0, 5, 10] ∧
    (sampleTimes 12 5).length ≠ (⌊(12:ℚ) / 5⌋).toNat := by
  have hc : (⌈(12:ℚ) / 5⌉) = 3 := by rw [Int.ceil_eq_iff] <;> norm_num
  have hf : (⌊(12:ℚ) / 5⌋) = 2 := by norm_num
  have he : sampleTimes 12 5 = [0, 5, 10] := by
    rw [sampleTimes, sampleGridCount, hc]
    simp [List.range_succ]
    norm_num
  refine ⟨he, by rw [he, hf]; decide⟩

/-- C5 (amended): for every total duration T > 0 and sampling period
Delta > 0, the sampler's target grid is exactly the set of timestamps
`i * Δ` with `i * Δ < T` — that is `⌈T/Δ⌉` timestamps, which equals
`⌊T/Δ⌋` only when Δ divides T — and training fails with an error when
fewer than 5 timestamps are produced. -/
theorem claimC5_amended_sample_grid (T every : ℚ)
    (hT : 0 < T) (he : 0 < every) :
    (∀ x, x ∈ sampleTimes T every ↔
      ∃ i : ℕ, x = (i : ℚ) * every ∧ (i : ℚ) * every < T) ∧
    (sampleTimes T every).length = (⌈T / every⌉).toNat ∧
    ((sampleTimes T every).length < 5 →
      trainSampleGrid T every =
        .error "not enough samples (need >= 5); increase duration or reduce --every-sec") ∧
    (5 ≤ (sampleTimes T every).length →
      trainSampleGrid T every = .ok (sampleTimes T every)) := by
  refine ⟨fun x => sampleTimes_mem_iff T every he x, ?_, ?_, ?_⟩
  · rw [sampleTimes, List.length_map, List.length_range, sampleGridCount]
    have : (0:ℤ) ≤ ⌈T / every⌉ := Int.ceil_nonneg (by positivity)
    omega
  · intro h5
    rw [trainSampleGrid, if_neg (by linarith), if_neg (by linarith), if_pos h5]
  · intro h5
    rw [trainSampleGrid, if_neg (by linarith), if_neg (by linarith), if_neg (by omega)]

/-- Witness for the amended C5 at T = 26, Delta = 5: six timestamps. -/
theorem claimC5_witness :
    (0:ℚ) < 26 ∧ (0:ℚ) < 5 ∧
    (5 ≤ (sampleTimes 26 5).length →
      trainSampleGrid 26 5 = .ok (sampleTimes 26 5)) :=
  ⟨by norm_num, by norm_num,
    (claimC5_amended_sample_grid 26 5 (by norm_num) (by norm_num)).2.2.2⟩

/-- Fraction clamp of the ROI extractor (`clampPct`,
`logo_detector.cpp` lines 22-26): values below 0.01 are raised to 0.01 and
values above 1 are lowered to 1. -/
def clampPct (v : ℚ) : ℚ := if v < 1/100 then 1/100 else if 1 < v then 1 else v

/-- ROI side length (`roiSidePx`, `logo_detector.cpp` lines 28-37): both
sides derive from the frame width `w`; `lround` rounds half away from zero,
which agrees with Lean's `round` (half up) on the nonnegative arguments that
occur here. -/
def roiSidePx (w h : ℤ) (roiWidthPct : ℚ) : ℤ :=
  if w ≤ 0 then 1
  else if h ≤ 0 then 1
  else max 1 (min (round ((w : ℚ) * clampPct roiWidthPct)) (min w h))

/-- Corner rectangle `(x, y, width, height)` of the ROI extractor
(`cornerRect`, `logo_detector.cpp` lines 39-50). -/
def cornerRect (w h : ℤ) (cornerIndex : ℕ) (pct : ℚ) : ℤ × ℤ × ℤ × ℤ :=
  let r := roiSidePx w h pct
  match cornerIndex with
  | 0 => (0, 0, r, r)
  | 1 => (w - r, 0, r, r)
  | 2 => (0, h - r, r, r)
  | 3 => (w - r, h - r, r, r)
  | _ => (0, 0, r, r)

/-- C8 (counterexample): for W = H = 1000 and p = 1/1000 (which the CLI
accepts, since it only requires p ∈ (0, 1]), the code clamps the fraction
to 0.01 first and returns side 10, while the claimed formula
clamp(1, min(W, H), round(p·W)) gives 1. -/
theorem claimC8_counterexample :
    roiSidePx 1000 1000 (1/1000) = 10 ∧
    max 1 (min (round ((1000 : ℚ) * (1/1000))) (min 1000 1000)) = 1 := by
  constructor
  · rw [roiSidePx, clampPct]
    norm_num [round_eq]
  · norm_num [round_eq]

/-- C8 (amended): for every frame of width W ≥ 1 and height H ≥ 1 and every
fraction p ∈ (0, 1], the corner ROI is an r × r square with
`r = clamp(1, min(W, H), round(clamp(p, 0.01, 1) · W))` — both sides derived
from W, not H — placed at (0,0), (W−r,0), (0,H−r) or (W−r,H−r) according to
the corner index; when moreover p ≥ 0.01 this is exactly the claimed
`r = clamp(1, min(W, H), round(p · W))`. -/
theorem claimC8_amended_roi (w h : ℤ) (p : ℚ)
    (hw : 1 ≤ w) (hh : 1 ≤ h) (hp0 : 0 < p) (hp1 : p ≤ 1) :
    roiSidePx w h p = max 1 (min (round ((w : ℚ) * clampPct p)) (min w h)) ∧
    (1/100 ≤ p → roiSidePx w h p = max 1 (min (round ((w : ℚ) * p)) (min w h))) ∧
    cornerRect w h 0 p = (0, 0, roiSidePx w h p, roiSidePx w h p) ∧
    cornerRect w h 1 p = (w - roiSidePx w h p, 0, roiSidePx w h p, roiSidePx w h p) ∧
    cornerRect w h 2 p = (0, h - roiSidePx w h p, roiSidePx w h p, roiSidePx w h p) ∧
    cornerRect w h 3 p =
      (w - roiSidePx w h p, h - roiSidePx w h p, roiSidePx w h p, roiSidePx w h p) := by
  have hw' : ¬ w ≤ 0 := by omega
  have hh' : ¬ h ≤ 0 := by omega
  refine ⟨by rw [roiSidePx, if_neg hw', if_neg hh'], ?_, rfl, rfl, rfl, rfl⟩
  intro hp
  rw [roiSidePx, if_neg hw', if_neg hh', clampPct, if_neg (by linarith), if_neg (by linarith)]

/-- Witness for the amended C8 at W = 1280, H = 720, p = 3/20. -/
theorem claimC8_witness :
    ((1:ℤ) ≤ 1280 ∧ (1:ℤ) ≤ 720 ∧ (0:ℚ) < 3/20 ∧ (3:ℚ)/20 ≤ 1) ∧
    ((1:ℚ)/100 ≤ 3/20 →
      roiSidePx 1280 720 (3/20) =
        max 1 (min (round ((1280 : ℚ) * (3/20))) (min 1280 720))) :=
  ⟨by norm_num,
    (claimC8_amended_roi 1280 720 (3/20) (by norm_num) (by norm_num)
      (by norm_num) (by norm_num)).2.1⟩

/-- One probe evaluation of `evaluateHasLogoParallelProbes`
(`main.cpp` lines 207-234), abstracted over the frame source and the
per-frame classifier: reading the frame at the probe timestamp either fails
(`none`, covering both a failed `cap.read` and an empty frame) or yields a
frame; a failed read records hasLogo = 0 (lines 210-211). -/
def evalProbe {α : Type} (readFrame : ℚ → Option α) (classify : α → Bool)
    (t : ℚ) : Bool :=
  match readFrame t with
  | none => false
  | some fr => classify fr

/-- Outcome slots of `evaluateHasLogoParallelProbes` over the flattened
probe list: slot `idx` holds the evaluation of probe `idx` (each slot is
written by exactly one worker, so the joined result is this map). -/
def evaluateHasLogoProbes {α : Type} (readFrame : ℚ → Option α)
    (classify : α → Bool) (probes : List ℚ) : List Bool :=
  probes.map (evalProbe readFrame classify)

/-- C10: a probe whose frame read fails is recorded as no-logo rather than
skipped or surfaced as an error: (i) a failed read evaluates to `false`;
(ii) the outcome list keeps one slot per probe; (iii) replacing every
failing read by a successful read of a frame classified no-logo leaves the
outcome list unchanged, so unreadable probes participate in the
refined-boundary scan exactly like genuine no-logo probes. -/
theorem claimC10_failed_probe_is_no_logo {α : Type}
    (readFrame readFrame' : ℚ → Option α) (classify : α → Bool)
    (probes : List ℚ)
    (hagree : ∀ t, readFrame t = readFrame' t ∨
      (readFrame t = none ∧ ∃ fr, readFrame' t = some fr ∧ classify fr = false)) :
    (∀ t, readFrame t = none → evalProbe readFrame classify t = false) ∧
    (evaluateHasLogoProbes readFrame classify probes).length = probes.length ∧
    evaluateHasLogoProbes readFrame classify probes =
      evaluateHasLogoProbes readFrame' classify probes := by
  refine ⟨?_, ?_, ?_⟩
  · intro t ht
    rw [evalProbe, ht]
  · rw [evaluateHasLogoProbes, List.length_map]
  · rw [evaluateHasLogoProbes, evaluateHasLogoProbes]
    refine List.map_congr_left ?_
    intro t _
    rcases hagree t with he | ⟨hn, fr, hs, hc⟩
    · rw [evalProbe, evalProbe, he]
    · simp [evalProbe, hn, hs, hc]

/-- Witness for C10: a two-probe run where the read at t = 0 fails and the
replacement source returns a no-logo frame there. -/
theorem claimC10_witness :
    (∀ t : ℚ, (fun t : ℚ => if t = 0 then (none : Option Bool) else some true) t =
        (fun t : ℚ => if t = 0 then some false else some true) t ∨
      ((fun t : ℚ => if t = 0 then (none : Option Bool) else some true) t = none ∧
        ∃ fr, (fun t : ℚ => if t = 0 then some false else some true) t = some fr ∧
          (fun b : Bool => b) fr = false)) ∧
    evaluateHasLogoProbes (fun t : ℚ => if t = 0 then (none : Option Bool) else some true)
        (fun b : Bool => b) [0, 1] =
      evaluateHasLogoProbes (fun t : ℚ => if t = 0 then some false else some true)
        (fun b : Bool => b) [0, 1] := by
  have hagree : ∀ t : ℚ,
      (fun t : ℚ => if t = 0 then (none : Option Bool) else some true) t =
        (fun t : ℚ => if t = 0 then some false else some true) t ∨
      ((fun t : ℚ => if t = 0 then (none : Option Bool) else some true) t = none ∧
        ∃ fr, (fun t : ℚ => if t = 0 then some false else some true) t = some fr ∧
          (fun b : Bool => b) fr = false) := by
    intro t
    by_cases ht : t = 0
    · exact Or.inr ⟨by simp [ht], false, by simp [ht], rfl⟩
    · exact Or.inl (by simp [ht])
  exact ⟨hagree,
    (claimC10_failed_probe_is_no_logo _ _ (fun b : Bool => b) [0, 1] hagree).2.2⟩


/-- Insertion into a sorted list; used to model the effect of the
`nth_element`/`partial_sort`/`std::sort` calls of the source, all of which
select positions of the sorted permutation of their input. -/
def insertSorted (x : ℚ) : List ℚ → List ℚ
  | [] => [x]
  | y :: ys => if x ≤ y then x :: y :: ys else y :: insertSorted x ys

/-- Sorting a rational list (insertion sort). -/
def sortQ : List ℚ → List ℚ
  | [] => []
  | x :: xs => insertSorted x (sortQ xs)

theorem insertSorted_perm (x : ℚ) : ∀ l : List ℚ, (insertSorted x l).Perm (x :: l) := by
  intro l
  induction l with
  | nil => simp [insertSorted]
  | cons y ys ih =>
      rw [insertSorted]
      split
      · exact List.Perm.refl _
      · exact (List.Perm.cons y ih).trans (List.Perm.swap x y ys)

theorem sortQ_perm : ∀ l : List ℚ, (sortQ l).Perm l := by
  intro l
  induction l with
  | nil => exact List.Perm.refl _
  | cons x xs ih =>
      rw [sortQ]
      exact (insertSorted_perm x (sortQ xs)).trans (List.Perm.cons x ih)

theorem mem_sortQ (x : ℚ) (l : List ℚ) : x ∈ sortQ l ↔ x ∈ l :=
  (sortQ_perm l).mem_iff

theorem length_sortQ (l : List ℚ) : (sortQ l).length = l.length :=
  (sortQ_perm l).length_eq

/-- Minimum of a nonempty list, 0 for the empty list
(`*std::min_element`, `main.cpp` line 571). -/
def listMinD : List ℚ → ℚ
  | [] => 0
  | x :: xs => xs.foldl min x

/-- Maximum of a nonempty list, 0 for the empty list
(`*std::max_element`, `main.cpp` lines 572 and 1608). -/
def listMaxD : List ℚ → ℚ
  | [] => 0
  | x :: xs => xs.foldl max x

theorem foldl_max_facts (xs : List ℚ) : ∀ b : ℚ,
    b ≤ xs.foldl max b ∧ ∀ y ∈ xs, y ≤ xs.foldl max b := by
  induction xs with
  | nil => intro b; simp
  | cons x xs ih =>
      intro b
      obtain ⟨h1, h2⟩ := ih (max b x)
      refine ⟨le_trans (le_max_left b x) h1, ?_⟩
      intro y hy
      rcases List.mem_cons.1 hy with rfl | hy
      · exact le_trans (le_max_right b y) h1
      · exact h2 y hy

theorem le_listMaxD (l : List ℚ) (y : ℚ) (hy : y ∈ l) : y ≤ listMaxD l := by
  cases l with
  | nil => cases hy
  | cons x xs =>
      rw [listMaxD]
      rcases List.mem_cons.1 hy with rfl | hy
      · exact (foldl_max_facts xs y).1
      · exact (foldl_max_facts xs x).2 y hy

theorem foldl_min_mem (xs : List ℚ) : ∀ b : ℚ, xs.foldl min b ∈ b :: xs := by
  induction xs with
  | nil => intro b; simp
  | cons x xs ih =>
      intro b
      have := ih (min b x)
      rcases List.mem_cons.1 this with he | hm
      · rw [List.foldl_cons, he]
        rcases le_total b x with h | h
        · simp [min_eq_left h]
        · simp [min_eq_right h]
      · exact List.mem_cons_of_mem _ (List.mem_cons_of_mem _ hm)

theorem listMinD_mem (l : List ℚ) (hne : l ≠ []) : listMinD l ∈ l := by
  cases l with
  | nil => exact absurd rfl hne
  | cons x xs => exact foldl_min_mem xs x

/-- Quantile selection (`quantile`, `main.cpp` lines 569-576): empty list
gives 0, `q ≤ 0` the minimum, `q ≥ 1` the maximum, otherwise the element at
position `llround(q * (n - 1))` of the sorted list (the position that
`nth_element` fills); `llround` on the nonnegative values that occur here
agrees with Lean's `round`. -/
def quantileQ (v : List ℚ) (q : ℚ) : ℚ :=
  if v = [] then 0
  else if q ≤ 0 then listMinD v
  else if 1 ≤ q then listMaxD v
  else (sortQ v).getD (round (q * ((v.length : ℚ) - 1))).toNat 0

theorem quantileQ_le_max (v : List ℚ) (q : ℚ) (hne : v ≠ []) :
    quantileQ v q ≤ listMaxD v := by
  rw [quantileQ, if_neg hne]
  split
  · exact le_listMaxD v _ (listMinD_mem v hne)
  · split
    · exact le_rfl
    · rename_i hq0 hq1
      have hn1 : 1 ≤ v.length := by
        cases v with
        | nil => exact absurd rfl hne
        | cons _ _ => simp
      have hidx : (round (q * ((v.length : ℚ) - 1))).toNat < (sortQ v).length := by
        rw [length_sortQ]
        have hq0' : 0 < q := by linarith [not_le.1 hq0]
        have hq1' : q < 1 := not_le.1 hq1
        have hb : (0:ℚ) ≤ (v.length : ℚ) - 1 := by
          have : (1:ℚ) ≤ (v.length : ℚ) := by exact_mod_cast hn1
          linarith
        have hlt : q * ((v.length : ℚ) - 1) + 1/2 < (v.length : ℚ) := by
          nlinarith
        have h2 : round (q * ((v.length : ℚ) - 1)) < (v.length : ℤ) := by
          rw [round_eq]
          exact Int.floor_lt.2 (by push_cast; linarith)
        omega
      apply le_listMaxD
      rw [← mem_sortQ]
      rw [List.getD_eq_getElem _ _ hidx]
      exact List.getElem_mem hidx

/-- Average of the `k` smallest Bhattacharyya distances from sample `i` to
the logo seeds (`knnAvgDistToSeedsHist`, `main.cpp` lines 601-624).
`d i s` abstracts `compareHist(hists.row i, hists.row s, BHATTACHARYYA)`;
`n` is `hists.rows`; seed indices are C++ `int`s, invalid ones skipped. -/
def knnAvgDistToSeedsHist (d : ℕ → ℕ → ℚ) (n : ℕ) (i : ℤ) (seeds : List ℤ)
    (k : ℕ) : ℚ :=
  if n = 0 ∨ seeds = [] then 0
  else if i < 0 ∨ (n : ℤ) ≤ i then 0
  else
    let ds := seeds.filterMap (fun s =>
      if s < 0 ∨ (n : ℤ) ≤ s then none
      else if s = i then none
      else some (d i.toNat s.toNat))
    if ds = [] then 0
    else
      let kk := max 1 (min k ds.length)
      ((sortQ ds).take kk).sum / (kk : ℚ)

/-- Effective neighbour count of the seed-KNN classifier
(`main.cpp` line 1597): `max(1, min(knnK, |seeds| - 1))`. -/
def knnKk (knnK : ℕ) (seeds : List ℤ) : ℕ := max 1 (min knnK (seeds.length - 1))

/-- Scores of the seeds themselves (`main.cpp` lines 1600-1605); seeds
outside `[0, n)` are skipped. -/
def knnSeedScores (d : ℕ → ℕ → ℚ) (n : ℕ) (seeds : List ℤ) (kk : ℕ) : List ℚ :=
  seeds.filterMap (fun s =>
    if s < 0 ∨ (n : ℤ) ≤ s then none
    else some (knnAvgDistToSeedsHist d n s seeds kk))

/-- Result of the seed-KNN classifier: the threshold and the per-sample
labels. -/
structure KnnResult where
  threshold : ℚ
  hasLogo : List Bool
  deriving DecidableEq, Repr

/-- Seed-KNN classification (`main.cpp` lines 1592-1624): with fewer than 3
seeds the strategy falls back to DBSCAN (`none`); otherwise the threshold is
the q-quantile of the seed scores, raised to `1.02 * max(seed scores)`
whenever the quantile is below that maximum, and sample `i` is classified
logo iff its score is at most the threshold. -/
def knnClassify (d : ℕ → ℕ → ℚ) (n : ℕ) (seeds : List ℤ) (knnK : ℕ) (q : ℚ) :
    Option KnnResult :=
  if seeds.length < 3 then none
  else
    let kk := knnKk knnK seeds
    let seedScores := knnSeedScores d n seeds kk
    let th0 := quantileQ seedScores q
    let th := if seedScores ≠ [] then
        (if th0 < listMaxD seedScores then listMaxD seedScores * (102/100) else th0)
      else th0
    some ⟨th, (List.range n).map
      (fun (i : ℕ) => decide (knnAvgDistToSeedsHist d n (i : ℤ) seeds kk ≤ th))⟩

theorem knnAvg_nonneg (d : ℕ → ℕ → ℚ) (n : ℕ) (i : ℤ) (seeds : List ℤ) (k : ℕ)
    (hd : ∀ a b, 0 ≤ d a b) : 0 ≤ knnAvgDistToSeedsHist d n i seeds k := by
  rw [knnAvgDistToSeedsHist]
  split
  · exact le_rfl
  · split
    · exact le_rfl
    · dsimp only
      split
      · exact le_rfl
      · rename_i hne
        apply div_nonneg
        · apply List.sum_nonneg
          intro x hx
          have hxm : x ∈ sortQ (seeds.filterMap _) := List.mem_of_mem_take hx
          rw [mem_sortQ] at hxm
          obtain ⟨s, _, hs⟩ := List.mem_filterMap.1 hxm
          split at hs
          · cases hs
          · split at hs
            · cases hs
            · cases Option.some.inj hs
              exact hd _ _
        · positivity

/-- C6 (amended): whenever there are at least 3 logo seeds, the seed-KNN
threshold θ satisfies θ ≥ max(seed scores) — it equals 1.02 × max only when
the q-quantile of the seed scores is strictly below their maximum, and
equals the quantile itself (which is then the maximum) otherwise — and
consequently every valid seed has score ≤ θ and is classified hasLogo;
with fewer than 3 seeds the classifier falls back to DBSCAN. -/
theorem claimC6_amended_seed_knn (d : ℕ → ℕ → ℚ) (n : ℕ) (seeds : List ℤ)
    (knnK : ℕ) (q : ℚ) (hd : ∀ a b, 0 ≤ d a b) :
    (seeds.length < 3 → knnClassify d n seeds knnK q = none) ∧
    (3 ≤ seeds.length → ∃ r, knnClassify d n seeds knnK q = some r ∧
      listMaxD (knnSeedScores d n seeds (knnKk knnK seeds)) ≤ r.threshold ∧
      (∀ x ∈ knnSeedScores d n seeds (knnKk knnK seeds), x ≤ r.threshold) ∧
      (∀ s ∈ seeds, 0 ≤ s → s < (n : ℤ) →
        r.hasLogo.getD s.toNat false = true)) := by
  constructor
  · intro h
    rw [knnClassify, if_pos h]
  · intro h3
    rw [knnClassify, if_neg (by omega)]
    set S := knnSeedScores d n seeds (knnKk knnK seeds) with hS
    set m := listMaxD S with hm
    set th0 := quantileQ S q with hth0
    set th := if S ≠ [] then (if th0 < m then m * (102/100) else th0) else th0 with hth
    have hmax : m ≤ th := by
      rw [hth]
      by_cases hSe : S = []
      · rw [if_neg (by simpa using hSe), hm, hth0, hSe]
        simp [quantileQ, listMaxD]
      · rw [if_pos hSe]
        split
        · rename_i hlt
          have hm0 : 0 ≤ m := by
            obtain ⟨x, hx⟩ := List.exists_mem_of_ne_nil S hSe
            have hx0 : 0 ≤ x := by
              rw [hS] at hx
              obtain ⟨s, _, hs⟩ := List.mem_filterMap.1 hx
              split at hs
              · cases hs
              · cases Option.some.inj hs
                exact knnAvg_nonneg d n s seeds (knnKk knnK seeds) hd
            exact le_trans hx0 (le_listMaxD S x hx)
          nlinarith
        · rename_i hge
          exact not_lt.1 hge
    refine ⟨_, rfl, hmax, ?_, ?_⟩
    · intro x hx
      exact le_trans (le_listMaxD S x hx) hmax
    · intro s hs hs0 hsn
      have hscore : knnAvgDistToSeedsHist d n s seeds (knnKk knnK seeds) ∈ S := by
        rw [hS, knnSeedScores]
        refine List.mem_filterMap.2 ⟨s, hs, ?_⟩
        rw [if_neg (by omega)]
      have hle : knnAvgDistToSeedsHist d n s seeds (knnKk knnK seeds) ≤ th :=
        le_trans (le_listMaxD S _ hscore) hmax
      have hlen : s.toNat < ((List.range n).map
          (fun (i : ℕ) => decide (knnAvgDistToSeedsHist d n (i : ℤ) seeds
            (knnKk knnK seeds) ≤ th))).length := by
        rw [List.length_map, List.length_range]
        omega
      rw [List.getD_eq_getElem _ _ hlen]
      rw [List.getElem_map, List.getElem_range]
      have hcast : ((s.toNat : ℕ) : ℤ) = s := Int.toNat_of_nonneg hs0
      rw [hcast]
      exact decide_eq_true hle

/-- Distance function of the C6 counterexample: every pair of distinct
samples is at Bhattacharyya distance 1/5. -/
def cexD6 : ℕ → ℕ → ℚ := fun _ _ => 1/5

theorem cexD6_avg : ∀ s : ℤ, s ∈ ([0, 1, 2] : List ℤ) →
    knnAvgDistToSeedsHist cexD6 3 s [0, 1, 2] 2 = 1/5 := by
  intro s hs
  fin_cases hs <;>
    · rw [knnAvgDistToSeedsHist]
      norm_num [cexD6, List.filterMap_cons, sortQ, insertSorted]
      simp

theorem cexD6_quantile : quantileQ [1/5, 1/5, 1/5] (19/20) = 1/5 := by
  rw [quantileQ, if_neg (by simp), if_neg (by norm_num), if_neg (by norm_num)]
  have hr : (round ((19/20 : ℚ) *
      ((([(1:ℚ)/5, 1/5, 1/5].length : ℕ) : ℚ) - 1))).toNat = 2 := by
    norm_num [round_eq]
    simp
  rw [hr]
  norm_num [sortQ, insertSorted]

theorem cexD6_max : listMaxD [(1:ℚ)/5, 1/5, 1/5] = 1/5 := by
  norm_num [listMaxD]

theorem cexD6_scores : knnSeedScores cexD6 3 [0, 1, 2] 2 = [1/5, 1/5, 1/5] := by
  rw [knnSeedScores]
  norm_num [List.filterMap_cons]
  rw [cexD6_avg 0 (by simp), cexD6_avg 1 (by simp), cexD6_avg 2 (by simp)]
  norm_num

/-- C6 (counterexample): with exactly 3 seeds whose pairwise distances are
all 1/5 and the default quantile q = 0.95, the quantile index is
llround(0.95 * 2) = 2, so the quantile equals the maximum seed score and the
code keeps θ = 1/5 < 1.02 × max(seed scores) = 51/250: the enforcement
`θ ≥ 1.02 × max` only fires when the quantile is strictly below the
maximum. -/
theorem claimC6_counterexample :
    knnClassify cexD6 3 [0, 1, 2] 7 (19/20) =
      some ⟨1/5, [true, true, true]⟩ ∧
    ¬ (listMaxD (knnSeedScores cexD6 3 [0, 1, 2] (knnKk 7 [0, 1, 2])) * (102/100) ≤
        (1/5 : ℚ)) := by
  have hkk : knnKk 7 [0, 1, 2] = 2 := by norm_num [knnKk]
  constructor
  · rw [knnClassify, if_neg (by norm_num), hkk]
    dsimp only
    rw [cexD6_scores, cexD6_quantile, cexD6_max]
    rw [if_pos (by simp), if_neg (by norm_num)]
    refine congrArg some ?_
    refine congrArg (KnnResult.mk (1/5)) ?_
    simp [List.range_succ]
    rw [cexD6_avg 0 (by simp), cexD6_avg 1 (by simp), cexD6_avg 2 (by simp)]
    norm_num
  · rw [hkk, cexD6_scores, cexD6_max]
    norm_num

/-- Witness for the amended C6 at the same concrete instance. -/
theorem claimC6_witness :
    (∀ a b, 0 ≤ cexD6 a b) ∧
    (3 ≤ ([0, 1, 2] : List ℤ).length →
      ∃ r, knnClassify cexD6 3 [0, 1, 2] 7 (19/20) = some r ∧
        listMaxD (knnSeedScores cexD6 3 [0, 1, 2] (knnKk 7 [0, 1, 2])) ≤ r.threshold ∧
        (∀ x ∈ knnSeedScores cexD6 3 [0, 1, 2] (knnKk 7 [0, 1, 2]), x ≤ r.threshold) ∧
        (∀ s ∈ ([0, 1, 2] : List ℤ), 0 ≤ s → s < (3 : ℤ) →
          r.hasLogo.getD s.toNat false = true)) :=
  ⟨fun a b => by norm_num [cexD6],
    (claimC6_amended_seed_knn cexD6 3 [0, 1, 2] 7 (19/20)
      (fun a b => by norm_num [cexD6])).2⟩


/-- Adjacent pairs of a list, pairing each element with its successor. -/
def adjPairs (l : List ℚ) : List (ℚ × ℚ) := l.zip l.tail

/-- Largest-gap scan of the tokayo auto-threshold (`main.cpp` lines
1432-1441): walking the sorted scores, every adjacent gap strictly larger
than the best seen so far updates the best gap and sets the candidate
threshold to the midpoint of that pair. -/
def tokayoGapScan : List ℚ → ℚ → ℚ → ℚ × ℚ
  | a :: b :: rest, bestGap, th =>
      if bestGap < b - a then tokayoGapScan (b :: rest) (b - a) ((a + b) / 2)
      else tokayoGapScan (b :: rest) bestGap th
  | _, bestGap, th => (bestGap, th)

/-- NCC threshold selection (`main.cpp` lines 1429-1445): a positive user
threshold is used as is; otherwise the candidate starts at the user value,
is updated by the largest-gap scan of the sorted scores, and falls back to
0.5 when still non-positive. -/
def tokayoThreshold (userTh : ℚ) (nccScores : List ℚ) : ℚ :=
  if userTh ≤ 0 then
    (if (tokayoGapScan (sortQ nccScores) 0 userTh).2 ≤ 0 then 1/2
     else (tokayoGapScan (sortQ nccScores) 0 userTh).2)
  else userTh

/-- Tokayo per-sample classification (`main.cpp` lines 1447-1453): sample
`i` is logo iff `ncc_i ≥ threshold`. -/
def tokayoClassify (userTh : ℚ) (nccScores : List ℚ) : List Bool :=
  nccScores.map (fun s => decide (tokayoThreshold userTh nccScores ≤ s))

theorem adjPairs_cons₂ (a b : ℚ) (rest : List ℚ) :
    adjPairs (a :: b :: rest) = (a, b) :: adjPairs (b :: rest) := rfl

theorem tokayoGapScan_no_update :
    ∀ (l : List ℚ) (g th : ℚ), (∀ p ∈ adjPairs l, p.2 - p.1 ≤ g) →
      tokayoGapScan l g th = (g, th) := by
  intro l
  induction l with
  | nil => intro g th _; rfl
  | cons a tail ih =>
      intro g th hall
      cases tail with
      | nil => rfl
      | cons b rest =>
          rw [tokayoGapScan]
          rw [if_neg (by
            have := hall (a, b) (by rw [adjPairs_cons₂]; exact List.mem_cons_self _ _)
            simpa using not_lt.2 this)]
          exact ih g th (fun p hp =>
            hall p (by rw [adjPairs_cons₂]; exact List.mem_cons_of_mem _ hp))

theorem tokayoGapScan_unique_max :
    ∀ (l : List ℚ) (g th a₀ b₀ : ℚ),
      (a₀, b₀) ∈ adjPairs l →
      g < b₀ - a₀ →
      (∀ p ∈ adjPairs l, p ≠ (a₀, b₀) → p.2 - p.1 < b₀ - a₀) →
      (tokayoGapScan l g th).2 = (a₀ + b₀) / 2 := by
  intro l
  induction l with
  | nil => intro g th a₀ b₀ hmem; cases hmem
  | cons a tail ih =>
      intro g th a₀ b₀ hmem hg huniq
      cases tail with
      | nil => cases hmem
      | cons b rest =>
          rw [adjPairs_cons₂] at hmem huniq
          rw [tokayoGapScan]
          by_cases hab : (a, b) = (a₀, b₀)
          · obtain ⟨rfl, rfl⟩ := Prod.mk.inj hab
            rw [if_pos hg]
            rw [tokayoGapScan_no_update (b :: rest) (b - a) ((a + b) / 2)
              (fun p hp => ?_)]
            by_cases hp0 : p = (a, b)
            · rw [hp0]
            · exact le_of_lt (huniq p (List.mem_cons_of_mem _ hp) hp0)
          · have hmem' : (a₀, b₀) ∈ adjPairs (b :: rest) := by
              rcases List.mem_cons.1 hmem with he | hmem'
              · exact absurd he.symm hab
              · exact hmem'
            have hablt : b - a < b₀ - a₀ :=
              huniq (a, b) (List.mem_cons_self _ _) hab
            split
            · exact ih (b - a) ((a + b) / 2) a₀ b₀ hmem' hablt
                (fun p hp hne => huniq p (List.mem_cons_of_mem _ hp) hne)
            · exact ih g th a₀ b₀ hmem' hg
                (fun p hp hne => huniq p (List.mem_cons_of_mem _ hp) hne)

/-- The S6 scenario scores [0.10, 0.12, 0.15, 0.82, 0.84, 0.87]. -/
def nccScoresS6 : List ℚ := [1/10, 3/25, 3/20, 41/50, 21/25, 87/100]

theorem nccScoresS6_sorted : sortQ nccScoresS6 = nccScoresS6 := by
  rw [nccScoresS6]
  norm_num [sortQ, insertSorted]

/-- C7: in tokayo mode with user threshold 0 (auto), the NCC acceptance
threshold is the midpoint of the largest gap between consecutive values of
the sorted NCC scores (with the 0.5 fallback when that midpoint is not
positive), and a sample is classified as logo iff its NCC score is at least
that threshold; in particular, for the sorted scores
[0.10, 0.12, 0.15, 0.82, 0.84, 0.87] the auto threshold is
(0.15 + 0.82)/2 = 0.485 and exactly the last three samples are logo. -/
theorem claimC7_tokayo_gap_threshold :
    (∀ (userTh : ℚ) (scores : List ℚ) (a₀ b₀ : ℚ),
      userTh ≤ 0 →
      (a₀, b₀) ∈ adjPairs (sortQ scores) →
      0 < b₀ - a₀ →
      (∀ p ∈ adjPairs (sortQ scores), p ≠ (a₀, b₀) → p.2 - p.1 < b₀ - a₀) →
      tokayoThreshold userTh scores =
        (if (a₀ + b₀) / 2 ≤ 0 then 1/2 else (a₀ + b₀) / 2)) ∧
    (∀ (userTh : ℚ) (scores : List ℚ) (i : ℕ), i < scores.length →
      ((tokayoClassify userTh scores).getD i false = true ↔
        tokayoThreshold userTh scores ≤ scores.getD i 0)) ∧
    tokayoThreshold 0 nccScoresS6 = 97/200 ∧
    tokayoClassify 0 nccScoresS6 = [false, false, false, true, true, true] := by
  have hgen : ∀ (userTh : ℚ) (scores : List ℚ) (a₀ b₀ : ℚ),
      userTh ≤ 0 →
      (a₀, b₀) ∈ adjPairs (sortQ scores) →
      0 < b₀ - a₀ →
      (∀ p ∈ adjPairs (sortQ scores), p ≠ (a₀, b₀) → p.2 - p.1 < b₀ - a₀) →
      tokayoThreshold userTh scores =
        (if (a₀ + b₀) / 2 ≤ 0 then 1/2 else (a₀ + b₀) / 2) := by
    intro userTh scores a₀ b₀ hu hmem hpos huniq
    have hscan : (tokayoGapScan (sortQ scores) 0 userTh).2 = (a₀ + b₀) / 2 :=
      tokayoGapScan_unique_max (sortQ scores) 0 userTh a₀ b₀ hmem hpos huniq
    rw [tokayoThreshold, if_pos hu, hscan]
  have hth : tokayoThreshold 0 nccScoresS6 = 97/200 := by
    rw [hgen 0 nccScoresS6 (3/20) (41/50) le_rfl ?_ (by norm_num) ?_]
    · norm_num
    · rw [nccScoresS6_sorted, nccScoresS6]
      simp [adjPairs]
    · rw [nccScoresS6_sorted, nccScoresS6]
      intro p hp hne
      simp [adjPairs] at hp
      rcases hp with he | he | he | he | he <;> rw [he] <;> norm_num
      exact absurd he hne
  refine ⟨hgen, ?_, hth, ?_⟩
  · intro userTh scores i hi
    have hlen : i < (tokayoClassify userTh scores).length := by
      rw [tokayoClassify, List.length_map]; exact hi
    rw [List.getD_eq_getElem _ _ hlen, List.getD_eq_getElem _ _ hi]
    simp only [tokayoClassify, List.getElem_map]
    simp
  · simp only [tokayoClassify]
    rw [hth, nccScoresS6]
    norm_num

/-- Witness for C7: the general gap rule applied to the S6 scores, whose
largest gap is the one between 0.15 and 0.82. -/
theorem claimC7_witness :
    ((0:ℚ) ≤ 0 ∧ ((3/20 : ℚ), (41/50 : ℚ)) ∈ adjPairs (sortQ nccScoresS6)) ∧
    tokayoThreshold 0 nccScoresS6 =
      (if (((3:ℚ)/20 + 41/50) / 2 ≤ 0) then 1/2 else ((3:ℚ)/20 + 41/50) / 2) := by
  have hmem : ((3/20 : ℚ), (41/50 : ℚ)) ∈ adjPairs (sortQ nccScoresS6) := by
    rw [nccScoresS6_sorted, nccScoresS6]
    simp [adjPairs]
  refine ⟨⟨le_rfl, hmem⟩, ?_⟩
  refine claimC7_tokayo_gap_threshold.1 0 nccScoresS6 (3/20) (41/50) le_rfl hmem
    (by norm_num) ?_
  rw [nccScoresS6_sorted, nccScoresS6]
  intro p hp hne
  simp [adjPairs] at hp
  rcases hp with he | he | he | he | he <;> rw [he] <;> norm_num
  exact absurd he hne

-- ===== C9: time_util.h, ISO-8601 round trip =====
-- Strings are modelled as lists of byte codes (List Nat): 43 '+', 45 '-',
-- 46 '.', 48..57 digits, 58 ':', 84 'T', 90 'Z', 122 'z'.  C++ int64_t
-- division and remainder truncate toward zero (Int.tdiv / Int.tmod).
/-- Model of the civil-from-days conversion performed by `gmtime_r` (glibc
`__offtime`), transcribed as Howard Hinnant's `civil_from_days` algorithm over ℤ
(proleptic Gregorian calendar, UTC, no leap seconds), which agrees with glibc on
every day number.  Divisions after the era adjustment have nonnegative operands,
where C truncation and Euclidean division coincide. -/
def civilFromDays (z0 : ℤ) : ℤ × ℤ × ℤ :=
  let z := z0 + 719468
  let era := (if 0 ≤ z then z else z - 146096) / 146097
  let doe := z - era * 146097
  let yoe := (doe - doe / 1460 + doe / 36524 - doe / 146096) / 365
  let y := yoe + era * 400
  let doy := doe - (365 * yoe + yoe / 4 - yoe / 100)
  let mp := (5 * doy + 2) / 153
  let d := doy - (153 * mp + 2) / 5 + 1
  let m := mp + (if mp < 10 then 3 else -9)
  (y + (if m ≤ 2 then 1 else 0), m, d)

/-- Model of the days-from-civil conversion performed by `timegm` (glibc
`__mktime_internal` over UTC), transcribed as Howard Hinnant's `days_from_civil`
algorithm over ℤ. -/
def daysFromCivil (y0 m d : ℤ) : ℤ :=
  let y := y0 - (if m ≤ 2 then 1 else 0)
  let era := (if 0 ≤ y then y else y - 399) / 400
  let yoe := y - era * 400
  let doy := (153 * (m + (if 2 < m then -3 else 9)) + 2) / 5 + d - 1
  let doe := yoe * 365 + yoe / 4 - yoe / 100 + doy
  era * 146097 + doe - 719468

/-- `timegm` on a `tm` holding year `y` (tm_year+1900), 1-based month `m`, day
`d`, hour, minute, second: seconds since the epoch. -/
def timegmSec (y m d hh mi ss : ℤ) : ℤ :=
  daysFromCivil y m d * 86400 + hh * 3600 + mi * 60 + ss

/-- Byte code of the decimal digit of `n mod 10`. -/
def digitCode (n : ℕ) : ℕ := 48 + n % 10

/-- Two-digit zero-padded decimal (`%m`, `%d`, `%H`, `%M`, `%S`). -/
def pad2 (n : ℕ) : List ℕ := [digitCode (n / 10), digitCode n]

/-- Three-digit zero-padded decimal (`setw(3) << setfill('0')` for the ms). -/
def pad3 (n : ℕ) : List ℕ := [digitCode (n / 100), digitCode (n / 10), digitCode n]

/-- Four-digit decimal; `%Y` prints `tm_year + 1900` unpadded, which for the
four-digit years arising below coincides with this. -/
def pad4 (n : ℕ) : List ℕ :=
  [digitCode (n / 1000), digitCode (n / 100), digitCode (n / 10), digitCode n]

/-- `epochMsToIso8601Utc` (time_util.h lines 80-89): splits `epochMs` into
seconds and milliseconds with C++ truncating division, converts the seconds
with `gmtime_r`, and prints `%Y-%m-%dT%H:%M:%S` followed by `.mmm+0000`. -/
def epochMsToIso8601Utc (epochMs : ℤ) : List ℕ :=
  let sec := epochMs.tdiv 1000
  let ms := epochMs.tmod 1000
  let days := sec.tdiv 86400
  let rem := sec.tmod 86400
  let c := civilFromDays days
  pad4 c.1.toNat ++ 45 :: pad2 c.2.1.toNat ++ 45 :: pad2 c.2.2.toNat ++
    84 :: pad2 (rem.tdiv 3600).toNat ++ 58 :: pad2 ((rem.tmod 3600).tdiv 60).toNat ++
    58 :: pad2 (rem.tmod 60).toNat ++ 46 :: pad3 ms.toNat ++ [43, 48, 48, 48, 48]

/-- `isdigit` on a byte code. -/
def isDigitCode (c : ℕ) : Bool := decide (48 ≤ c) && decide (c ≤ 57)

/-- Numeric value of a digit byte code. -/
def digVal (c : ℕ) : ℕ := c - 48

/-- `std::stoi` on a string of decimal digits (every substring it is applied to
below consists of digits). -/
def parseNatCodes (l : List ℕ) : ℕ := l.foldl (fun acc c => acc * 10 + digVal c) 0

/-- `input.substr(pos, len)` on a byte-code list. -/
def subStr (l : List ℕ) (pos len : ℕ) : List ℕ := (l.drop pos).take len

/-- Timezone suffix handling of `parseIso8601LikeToEpochMs` (time_util.h lines
56-75), starting at position `i`: returns the timezone offset in seconds, or
`none` where the C++ returns `false`. -/
def parseTzOffsetSec (input : List ℕ) (i : ℕ) : Option ℤ :=
  if i < input.length then
    let c := input.getD i 0
    if c = 90 ∨ c = 122 then some 0
    else if c = 43 ∨ c = 45 then
      let sign : ℤ := if c = 43 then 1 else -1
      if i + 2 ≥ input.length then none
      else
        let tzHour := parseNatCodes (subStr input (i + 1) 2)
        let j := if input.getD (i + 3) 0 = 58 ∧ i + 3 < input.length then i + 4 else i + 3
        if j + 1 ≥ input.length then none
        else
          let tzMin := parseNatCodes (subStr input j 2)
          some (sign * (tzHour * 3600 + tzMin * 60))
    else some 0
  else some 0

/-- `parseIso8601LikeToEpochMs` (time_util.h lines 29-78): fixed-offset field
extraction, optional `.mmm` fraction, optional timezone, and
`(timegm(tm) - tzOffsetSec) * 1000 + ms`. -/
def parseIso8601LikeToEpochMs (input : List ℕ) : Option ℤ :=
  if input.length < 19 then none
  else
    let year := parseNatCodes (subStr input 0 4)
    let mon := parseNatCodes (subStr input 5 2)
    let day := parseNatCodes (subStr input 8 2)
    let hh := parseNatCodes (subStr input 11 2)
    let mi := parseNatCodes (subStr input 14 2)
    let ss := parseNatCodes (subStr input 17 2)
    let hasDot := 19 < input.length ∧ input.getD 19 0 = 46
    let msDigits := if hasDot then (input.drop 20).takeWhile isDigitCode else []
    let ms : ℕ :=
      if msDigits = [] then 0
      else
        let v := parseNatCodes (msDigits.take 3)
        if msDigits.length = 1 then v * 100
        else if msDigits.length = 2 then v * 10 else v
    let i := if hasDot then 20 + msDigits.length else 19
    match parseTzOffsetSec input i with
    | none => none
    | some tzOff =>
        some ((timegmSec year mon day hh mi ss - tzOff) * 1000 + ms)

-- ===== calendar lemmas =====

theorem yoe_doy_eraLow (doe : ℤ) (h0 : 0 ≤ doe) (h1 : doe ≤ 1708) :
    0 ≤ (doe - doe / 1460 + doe / 36524 - doe / 146096) / 365 ∧
    (doe - doe / 1460 + doe / 36524 - doe / 146096) / 365 ≤ 399 ∧
    0 ≤ doe - (365 * ((doe - doe / 1460 + doe / 36524 - doe / 146096) / 365) +
        ((doe - doe / 1460 + doe / 36524 - doe / 146096) / 365) / 4 -
        ((doe - doe / 1460 + doe / 36524 - doe / 146096) / 365) / 100) ∧
    doe - (365 * ((doe - doe / 1460 + doe / 36524 - doe / 146096) / 365) +
        ((doe - doe / 1460 + doe / 36524 - doe / 146096) / 365) / 4 -
        ((doe - doe / 1460 + doe / 36524 - doe / 146096) / 365) / 100) ≤ 365 := by
  have hq : doe / 1460 = 0 ∨ doe / 1460 = 1 := by omega
  rcases hq with h | h <;> omega

theorem yoe_doy_eraHigh (doe : ℤ) (h0 : 135080 ≤ doe) (h1 : doe ≤ 146096) :
    0 ≤ (doe - doe / 1460 + doe / 36524 - doe / 146096) / 365 ∧
    (doe - doe / 1460 + doe / 36524 - doe / 146096) / 365 ≤ 399 ∧
    0 ≤ doe - (365 * ((doe - doe / 1460 + doe / 36524 - doe / 146096) / 365) +
        ((doe - doe / 1460 + doe / 36524 - doe / 146096) / 365) / 4 -
        ((doe - doe / 1460 + doe / 36524 - doe / 146096) / 365) / 100) ∧
    doe - (365 * ((doe - doe / 1460 + doe / 36524 - doe / 146096) / 365) +
        ((doe - doe / 1460 + doe / 36524 - doe / 146096) / 365) / 4 -
        ((doe - doe / 1460 + doe / 36524 - doe / 146096) / 365) / 100) ≤ 365 := by
  have hq : doe / 1460 = 92 ∨ doe / 1460 = 93 ∨ doe / 1460 = 94 ∨ doe / 1460 = 95 ∨
      doe / 1460 = 96 ∨ doe / 1460 = 97 ∨ doe / 1460 = 98 ∨ doe / 1460 = 99 ∨
      doe / 1460 = 100 := by omega
  rcases hq with h | h | h | h | h | h | h | h | h <;> omega

theorem month_day_facts (doy : ℤ) (h0 : 0 ≤ doy) (h1 : doy ≤ 365) :
    0 ≤ (5 * doy + 2) / 153 ∧ (5 * doy + 2) / 153 ≤ 11 ∧
    1 ≤ doy - (153 * ((5 * doy + 2) / 153) + 2) / 5 + 1 ∧
    doy - (153 * ((5 * doy + 2) / 153) + 2) / 5 + 1 ≤ 31 := by
  omega

set_option maxHeartbeats 1600000 in
theorem civil_roundtrip (z y m d : ℤ) (h0 : 0 ≤ z) (h1 : z < 12726)
    (hc : civilFromDays z = (y, m, d)) :
    daysFromCivil y m d = z ∧ 1000 ≤ y ∧ y ≤ 9999 ∧ 1 ≤ m ∧ m ≤ 12 ∧
    1 ≤ d ∧ d ≤ 31 := by
  simp only [civilFromDays] at hc
  rw [if_pos (show (0:ℤ) ≤ z + 719468 by omega)] at hc
  rw [Prod.mk.injEq, Prod.mk.injEq] at hc
  obtain ⟨hy, hm, hd⟩ := hc
  set era := (z + 719468) / 146097 with hera
  set doe := z + 719468 - era * 146097 with hdoe
  set yoe := (doe - doe / 1460 + doe / 36524 - doe / 146096) / 365 with hyoe
  set doy := doe - (365 * yoe + yoe / 4 - yoe / 100) with hdoy
  set mp := (5 * doy + 2) / 153 with hmp
  have h2 : era = 4 ∨ era = 5 := by omega
  have h3 : 0 ≤ doe ∧ doe ≤ 146096 := by omega
  have h4 : 0 ≤ yoe ∧ yoe ≤ 399 ∧ 0 ≤ doy ∧ doy ≤ 365 := by
    rcases h2 with h | h
    · have hr : 135080 ≤ doe := by omega
      have := yoe_doy_eraHigh doe hr h3.2
      rw [← hyoe, ← hdoy] at this
      exact this
    · have hr : doe ≤ 1708 := by omega
      have := yoe_doy_eraLow doe h3.1 hr
      rw [← hyoe, ← hdoy] at this
      exact this
  have h5 := month_day_facts doy h4.2.2.1 h4.2.2.2
  rw [← hmp] at h5
  subst hy hm hd
  simp only [daysFromCivil]
  have n1 : ∀ x : ℤ, x + 3 + -3 = x := fun x => by ring
  have n2 : ∀ x : ℤ, x + -9 + 9 = x := fun x => by ring
  have n3 : ∀ x : ℤ, x + 1 - 1 = x := fun x => by ring
  have n4 : ∀ x : ℤ, x + 0 - 0 = x := fun x => by ring
  have hk : (yoe + era * 400) / 400 = era := by
    rcases h2 with h | h <;> omega
  have n5 : yoe + era * 400 - era * 400 = yoe := by ring
  rcases h2 with h | h <;> split_ifs <;>
    (try simp only [n1, n2, n3, n4, hk, n5]) <;> omega

-- ===== digit lemmas =====

theorem isDigitCode_digitCode (n : ℕ) : isDigitCode (digitCode n) = true := by
  simp only [isDigitCode, digitCode, Bool.and_eq_true, decide_eq_true_eq]
  omega

theorem digVal_digitCode (n : ℕ) : digVal (digitCode n) = n % 10 := by
  simp only [digVal, digitCode]
  omega

theorem parseNatCodes4 (n : ℕ) (h : n ≤ 9999) :
    parseNatCodes [digitCode (n / 1000), digitCode (n / 100), digitCode (n / 10),
      digitCode n] = n := by
  simp only [parseNatCodes, List.foldl, digVal_digitCode]
  omega

theorem parseNatCodes3 (n : ℕ) (h : n ≤ 999) :
    parseNatCodes [digitCode (n / 100), digitCode (n / 10), digitCode n] = n := by
  simp only [parseNatCodes, List.foldl, digVal_digitCode]
  omega

theorem parseNatCodes2 (n : ℕ) (h : n ≤ 99) :
    parseNatCodes [digitCode (n / 10), digitCode n] = n := by
  simp only [parseNatCodes, List.foldl, digVal_digitCode]
  omega

-- ===== parsing the formatted shape =====

theorem parseNatCodes00 : parseNatCodes [48, 48] = 0 := rfl

set_option maxHeartbeats 1600000 in
theorem parse_format_codes (Y M D H Mi S ms : ℕ) (hY : Y ≤ 9999) (hM : M ≤ 99)
    (hD : D ≤ 99) (hH : H ≤ 99) (hMi : Mi ≤ 99) (hS : S ≤ 99) (hms : ms ≤ 999) :
    parseIso8601LikeToEpochMs (pad4 Y ++ 45 :: pad2 M ++ 45 :: pad2 D ++
      84 :: pad2 H ++ 58 :: pad2 Mi ++ 58 :: pad2 S ++ 46 :: pad3 ms ++
      [43, 48, 48, 48, 48]) =
    some (timegmSec Y M D H Mi S * 1000 + ms) := by
  simp only [pad4, pad3, pad2, List.cons_append, List.nil_append]
  simp only [parseIso8601LikeToEpochMs, parseTzOffsetSec, subStr, List.length_cons,
    List.length_nil, List.drop_succ_cons, List.drop_zero, List.take_succ_cons,
    List.take_zero, List.getD_cons_succ, List.getD_cons_zero, List.takeWhile_cons,
    isDigitCode_digitCode]
  norm_num [parseNatCodes4 Y hY, parseNatCodes2 M hM, parseNatCodes2 D hD,
    parseNatCodes2 H hH, parseNatCodes2 Mi hMi, parseNatCodes2 S hS,
    parseNatCodes3 ms hms, parseNatCodes00, parseTzOffsetSec, subStr,
    isDigitCode_digitCode, isDigitCode]
  intro h
  exact absurd h (List.cons_ne_nil _ _)

-- ===== the round trip =====

/-- C9: for every integer epochMs with 0 ≤ epochMs < 2^40, formatting it with
epochMsToIso8601Utc and parsing the result with parseIso8601LikeToEpochMs
succeeds and returns the original epochMs. -/
theorem claimC9_time_roundtrip (e : ℤ) (h0 : 0 ≤ e) (h1 : e < 2 ^ 40) :
    parseIso8601LikeToEpochMs (epochMsToIso8601Utc e) = some e := by
  have e1 : e.tdiv 1000 = e / 1000 := Int.tdiv_eq_ediv h0 (by norm_num)
  have hsec : 0 ≤ e / 1000 := Int.ediv_nonneg h0 (by norm_num)
  have e0 : e.tmod 1000 = e % 1000 := Int.tmod_eq_emod h0 (by norm_num)
  have e2 : (e / 1000).tdiv 86400 = e / 1000 / 86400 := Int.tdiv_eq_ediv hsec (by norm_num)
  have e3 : (e / 1000).tmod 86400 = e / 1000 % 86400 := Int.tmod_eq_emod hsec (by norm_num)
  have hrem : 0 ≤ e / 1000 % 86400 := Int.emod_nonneg _ (by norm_num)
  have e4 : (e / 1000 % 86400).tdiv 3600 = e / 1000 % 86400 / 3600 :=
    Int.tdiv_eq_ediv hrem (by norm_num)
  have e5 : (e / 1000 % 86400).tmod 3600 = e / 1000 % 86400 % 3600 :=
    Int.tmod_eq_emod hrem (by norm_num)
  have hrem2 : 0 ≤ e / 1000 % 86400 % 3600 := Int.emod_nonneg _ (by norm_num)
  have e6 : (e / 1000 % 86400 % 3600).tdiv 60 = e / 1000 % 86400 % 3600 / 60 :=
    Int.tdiv_eq_ediv hrem2 (by norm_num)
  have e7 : (e / 1000 % 86400).tmod 60 = e / 1000 % 86400 % 60 :=
    Int.tmod_eq_emod hrem (by norm_num)
  have hdays0 : 0 ≤ e / 1000 / 86400 := Int.ediv_nonneg hsec (by norm_num)
  have hdays1 : e / 1000 / 86400 < 12726 := by omega
  obtain ⟨y, m, d, hc⟩ : ∃ y m d, civilFromDays (e / 1000 / 86400) = (y, m, d) :=
    ⟨_, _, _, rfl⟩
  have key := civil_roundtrip (e / 1000 / 86400) y m d hdays0 hdays1 hc
  simp only [epochMsToIso8601Utc, e1, e0, e2, e3, e4, e5, e6, e7, hc]
  rw [parse_format_codes y.toNat m.toNat d.toNat (e / 1000 % 86400 / 3600).toNat
    (e / 1000 % 86400 % 3600 / 60).toNat (e / 1000 % 86400 % 60).toNat
    (e % 1000).toNat (by omega) (by omega) (by omega) (by omega) (by omega)
    (by omega) (by omega)]
  have hy0 : ((y.toNat : ℤ)) = y := Int.toNat_of_nonneg (by omega)
  have hm0 : ((m.toNat : ℤ)) = m := Int.toNat_of_nonneg (by omega)
  have hd0 : ((d.toNat : ℤ)) = d := Int.toNat_of_nonneg (by omega)
  rw [timegmSec, hy0, hm0, hd0, key.1]
  rw [Int.toNat_of_nonneg (by omega), Int.toNat_of_nonneg (by omega),
    Int.toNat_of_nonneg (by omega), Int.toNat_of_nonneg (by omega)]
  rw [Option.some.injEq]
  omega

theorem claimC9_witness :
    parseIso8601LikeToEpochMs (epochMsToIso8601Utc 1000000000123) =
      some 1000000000123 :=
  claimC9_time_roundtrip 1000000000123 (by decide) (by decide)

end AdsDetector
